import Mathlib

/-!
Verification of the automaton core of the `pars` lexer generator.

The Rust sources embedded here are `pars-lexer/src/character.rs`,
`pars-lexer/src/nfa.rs` and `pars-lexer/src/dfa.rs` (the current revision
of the crate; the older prototype under `src/` is superseded by it).
Machine integers (`u32` code points, `usize`/`isize` state indices and
offsets) are modelled as `Nat`/`Int` with explicit wrap-around where the
source casts, ordered `BTreeMap`s as association lists sorted by the
derived Rust ordering, and the source's `while` loops as fuel-indexed
recursion where `Except` distinguishes fuel exhaustion from the panics
of the source (`unwrap`, map indexing).
-/

deriving instance DecidableEq for Except

namespace Pars

/-- `u32::max_value()`, the largest code point value of the source. -/
def UMAX : Nat := 2 ^ 32 - 1

/-- `2^64`, modulus of the `as usize` cast of the source. -/
def USIZE : Nat := 2 ^ 64

/-- The `isize -> usize` reinterpreting cast used by `Nfa::transitions` and
`Nfa::get_move_set` on `state_idx as isize + off`. -/
def castUsize (i : Int) : Nat := (i % (USIZE : Int)).toNat

/-- `character.rs`: a closed character interval `[first, last]` over `u32`
code points (struct `Interval`). -/
structure Interval where
  first : Nat
  last : Nat
deriving DecidableEq, Repr

/-- The derived Rust `Ord` on `Interval`: lexicographic on `(first, last)`. -/
def Interval.ltb (a b : Interval) : Bool :=
  decide (a.first < b.first) || (decide (a.first = b.first) && decide (a.last < b.last))

/-- `Interval::new`: swaps the endpoints when given inverted. -/
def Interval.new (a b : Nat) : Interval :=
  if a > b then ⟨b, a⟩ else ⟨a, b⟩

/-- `Interval::new_single`. -/
def Interval.newSingle (c : Nat) : Interval := ⟨c, c⟩

/-- `Interval::new_any`: `[0, u32::max_value()]`. -/
def Interval.newAny : Interval := ⟨0, UMAX⟩

/-- `Interval::intersects`. -/
def Interval.intersectsb (a b : Interval) : Bool :=
  decide (a.first ≤ b.last) && decide (b.first ≤ a.last)

/-- Membership of a code point in an interval. -/
def Interval.containsPt (i : Interval) (c : Nat) : Bool :=
  decide (i.first ≤ c) && decide (c ≤ i.last)

/-- The `maybe` closure inside `Interval::intersect`: `Some [first, last]`
when the range is non-empty. -/
def maybeI (first last : Nat) : Option Interval :=
  if first ≤ last then some ⟨first, last⟩ else none

/-- The body of `Interval::intersect` after the operands have been ordered
(`a` is the smaller operand in the derived ordering). -/
def intersectCore (a b : Interval) :
    Option Interval × Option Interval × Option Interval :=
  if !a.intersectsb b then (some a, none, some b)
  else
    let midFirst := b.first
    let midLast := min a.last b.last
    let middle := maybeI midFirst midLast
    let left := if midFirst > 0 then maybeI a.first (midFirst - 1) else none
    let right := if midLast < UMAX then maybeI (midLast + 1) (max a.last b.last) else none
    (left, middle, right)

/-- `Interval::intersect`: the three-way split `(left, middle, right)`,
computed on the pair swapped into the derived order. -/
def Interval.intersect (x y : Interval) :
    Option Interval × Option Interval × Option Interval :=
  if Interval.ltb x y then intersectCore x y else intersectCore y x

/-- Well-formedness invariant the Rust `Interval` constructors guarantee
(fields are private, so every Rust `Interval` value satisfies it). -/
def Interval.Wf (i : Interval) : Prop := i.first ≤ i.last

instance (i : Interval) : Decidable i.Wf := by
  unfold Interval.Wf; infer_instance

/-- Number of code points of an interval (0 when malformed). -/
def Interval.size (i : Interval) : Nat := i.last + 1 - i.first

/-- `nfa.rs` enum `Transition`, variants in source declaration order. -/
inductive Transition where
  | Input : Interval → Transition
  | Epsilon : Transition
deriving DecidableEq, Repr

/-- The derived Rust `Ord` on `Transition`: variants compare by declaration
order first (`Input` before `Epsilon`), `Input` payloads by `Interval`. -/
def Transition.ltb : Transition → Transition → Bool
  | .Input i, .Input j => Interval.ltb i j
  | .Input _, .Epsilon => true
  | .Epsilon, .Input _ => false
  | .Epsilon, .Epsilon => false

/-! ### Ordered association lists (embedding of `BTreeMap`) -/

/-- `BTreeMap::insert`: insert sorted by `ltb`, replacing the value when the
key is already present. -/
def mapInsert {κ α : Type} (ltb : κ → κ → Bool) (k : κ) (v : α) :
    List (κ × α) → List (κ × α)
  | [] => [(k, v)]
  | (k', v') :: rest =>
    if ltb k k' then (k, v) :: (k', v') :: rest
    else if ltb k' k then (k', v') :: mapInsert ltb k v rest
    else (k, v) :: rest

/-- `BTreeMap::get`. -/
def mapGet? {κ α : Type} [DecidableEq κ] (k : κ) (m : List (κ × α)) : Option α :=
  (m.find? (fun p => p.1 = k)).map (·.2)

/-- `BTreeMap::remove` (dropping the returned value). -/
def mapRemove {κ α : Type} [DecidableEq κ] (k : κ) (m : List (κ × α)) :
    List (κ × α) :=
  m.filter (fun p => !(p.1 = k : Bool))

/-- Keys of a map, in storage order. -/
def mapKeys {κ α : Type} (m : List (κ × α)) : List κ := m.map (·.1)

/-! ### NFA -/

/-- `nfa.rs` struct `State`: ordered move map plus optional accepting
payload. -/
structure NState where
  moves : List (Transition × List Int)
  accepting : Option String
deriving DecidableEq, Repr

/-- `State::new`. -/
def NState.new : NState := ⟨[], none⟩

/-- `State::new_accepting`. -/
def NState.newAccepting (desc : String) : NState := ⟨[], some desc⟩

/-- `State::set_moves`. -/
def NState.setMoves (st : NState) (input : Transition) (targets : List Int) : NState :=
  { st with moves := mapInsert Transition.ltb input targets st.moves }

/-- `State::add_move`: `entry(input).or_insert(Vec::new()).push(target)`. -/
def NState.addMove (st : NState) (input : Transition) (target : Int) : NState :=
  match mapGet? input st.moves with
  | some v => { st with moves := mapInsert Transition.ltb input (v ++ [target]) st.moves }
  | none => { st with moves := mapInsert Transition.ltb input [target] st.moves }

/-- `State::get_moves`. -/
def NState.getMoves (st : NState) (input : Transition) : List Int :=
  (mapGet? input st.moves).getD []

/-- `nfa.rs` struct `Nfa`: the state sequence (`VecDeque<State>`). -/
structure Nfa where
  states : List NState
deriving DecidableEq, Repr

/-- `Nfa::new`: a single state with `Input(i) -> [+1]`. -/
def Nfa.new (i : Interval) : Nfa :=
  ⟨[NState.new.setMoves (.Input i) [1]]⟩

/-- `Nfa::new_accepting`. -/
def Nfa.newAccepting (desc : String) : Nfa := ⟨[NState.newAccepting desc]⟩

/-- `Nfa::new_empty`. -/
def Nfa.newEmpty : Nfa := ⟨[]⟩

/-- `Nfa::concat`: append the other automaton's states. -/
def Nfa.concat (a b : Nfa) : Nfa := ⟨a.states ++ b.states⟩

/-- `Nfa::union`: the dragon-book layout
`[E0 | self | Mself | other | Mother]`. -/
def Nfa.union (a b : Nfa) : Nfa :=
  let state4 := NState.new.setMoves .Epsilon [1]
  let other := b.states ++ [state4]
  let state2 := NState.new.setMoves .Epsilon [(other.length : Int) + 1]
  let self := a.states ++ [state2]
  let state0 := NState.new.setMoves .Epsilon [1, (self.length : Int) + 1]
  ⟨state0 :: self ++ other⟩

/-- `Nfa::star`: prepend a new entry and append an exit state. -/
def Nfa.star (a : Nfa) : Nfa :=
  let state2 := NState.new.setMoves .Epsilon [1, -(a.states.length : Int)]
  let self := a.states ++ [state2]
  let state0 := NState.new.setMoves .Epsilon [1, (self.length : Int) + 1]
  ⟨state0 :: self⟩

/-- `Nfa::positive`: like `star` but the new entry has no skip edge. -/
def Nfa.positive (a : Nfa) : Nfa :=
  let state2 := NState.new.setMoves .Epsilon [1, -(a.states.length : Int)]
  let self := a.states ++ [state2]
  let state0 := NState.new.setMoves .Epsilon [1]
  ⟨state0 :: self⟩

/-- `Nfa::is_accepting`: the last explicit state carries a payload. -/
def Nfa.isAccepting (a : Nfa) : Bool :=
  match a.states.getLast? with
  | some s => s.accepting.isSome
  | none => false

/-- `Nfa::combine`: add an epsilon edge from state 0 to the shifted start of
`other` and append its states. The source `assert!`s that both operands are
accepting; on an empty `self` the Rust indexing of state 0 would likewise
abort, so that branch is modelled as returning `other` alone and is
unreachable for the asserted inputs. -/
def Nfa.combine (a b : Nfa) : Nfa :=
  match a.states with
  | [] => ⟨b.states⟩
  | s0 :: rest => ⟨(s0.addMove .Epsilon (a.states.length : Int)) :: rest ++ b.states⟩

/-- `Nfa::transitions`: absolute targets of `state_idx` on `input`, with the
source's `(state_idx as isize + off) as usize` cast. -/
def Nfa.transitions (nfa : Nfa) (stateIdx : Nat) (input : Transition) : List Nat :=
  match nfa.states.get? stateIdx with
  | none => []
  | some st => (st.getMoves input).map (fun off => castUsize ((stateIdx : Int) + off))

/-- `Nfa::accepting`. -/
def Nfa.accepting (nfa : Nfa) (stateIdx : Nat) : Option String :=
  (nfa.states.get? stateIdx).bind (·.accepting)

/-- One pass of the inner `for t in transitions` loop of
`Nfa::epsilon_closure`: push every target not yet seen. -/
def closureExtend (acc : List Nat × List Nat) (ts : List Nat) : List Nat × List Nat :=
  ts.foldl (fun acc t => if t ∈ acc.1 then acc else (acc.1 ++ [t], t :: acc.2)) acc

/-- The worklist loop of `Nfa::epsilon_closure` (fuel-indexed; the stack is
popped most-recently-pushed first, as `Vec::pop` does). -/
def closureLoop (nfa : Nfa) : Nat → List Nat → List Nat → Option (List Nat)
  | _, epsi, [] => some epsi
  | 0, _, _ :: _ => none
  | fuel + 1, epsi, s :: rem =>
    let acc := closureExtend (epsi, rem) (nfa.transitions s .Epsilon)
    closureLoop nfa fuel acc.1 acc.2

/-- `Nfa::epsilon_closure`. -/
def Nfa.epsilonClosure (fuel : Nat) (nfa : Nfa) (states : List Nat) :
    Option (List Nat) :=
  closureLoop nfa fuel states states

/-- Rust `Vec::sort` on `usize` values. -/
def sortNat (l : List Nat) : List Nat := l.insertionSort (· ≤ ·)

/-- Rust `Vec::dedup`: remove consecutive duplicates. -/
def dedupAdj : List Nat → List Nat
  | [] => []
  | [x] => [x]
  | x :: y :: rest => if x = y then dedupAdj (y :: rest) else x :: dedupAdj (y :: rest)

/-- `sort` followed by `dedup`, the idiom of `get_move_set` and
`DState::from_nfa_states`. -/
def sortDedup (l : List Nat) : List Nat := dedupAdj (sortNat l)

/-- Move sets of the DFA builder: `BTreeMap<Interval, Vec<usize>>`. -/
abbrev MoveMap := List (Interval × List Nat)

/-- The inner loop of `Nfa::get_move_set` over one state's move map:
epsilon transitions are skipped, input targets are epsilon-closed and merged
(sorted, deduplicated) into the accumulated map. -/
def moveSetAddState (fuel : Nat) (nfa : Nfa) (s : Nat) :
    List (Transition × List Int) → MoveMap → Option MoveMap
  | [], m => some m
  | (t, offs) :: rest, m =>
    match t with
    | .Epsilon => moveSetAddState fuel nfa s rest m
    | .Input c =>
      match nfa.epsilonClosure fuel (offs.map (fun off => castUsize ((s : Int) + off))) with
      | none => none
      | some ec =>
        let cur := (mapGet? c m).getD []
        moveSetAddState fuel nfa s rest
          (mapInsert Interval.ltb c (sortDedup (cur ++ ec)) m)

/-- The outer loop of `Nfa::get_move_set` over the given states. -/
def getMoveSetGo (fuel : Nat) (nfa : Nfa) : List Nat → MoveMap → Option MoveMap
  | [], m => some m
  | s :: rest, m =>
    match nfa.states.get? s with
    | none => getMoveSetGo fuel nfa rest m
    | some st =>
      match moveSetAddState fuel nfa s st.moves m with
      | none => none
      | some m' => getMoveSetGo fuel nfa rest m'

/-- `Nfa::get_move_set`. -/
def Nfa.getMoveSet (fuel : Nat) (nfa : Nfa) (states : List Nat) : Option MoveMap :=
  getMoveSetGo fuel nfa states []

/-! ### DFA -/

/-- `dfa.rs` struct `State`: disjoint interval transitions plus optional
accepting payload. -/
structure DState where
  moves : List (Interval × Nat)
  accepting : Option String
deriving DecidableEq, Repr

/-- `State::is_accepting`. -/
def DState.isAcceptingD (st : DState) : Bool := st.accepting.isSome

/-- `State::move_intervals`: the keys of the move map. -/
def DState.moveIntervals (st : DState) : List Interval := mapKeys st.moves

/-- `dfa.rs` struct `Dfa`. -/
structure Dfa where
  states : List DState
deriving DecidableEq, Repr

/-- The temporary `DState` struct inside `Dfa::from_nfa`, pairing the DFA
state with its set of NFA states. -/
structure DTmp where
  nfaStates : List Nat
  dstate : DState
deriving DecidableEq, Repr

/-- Failure modes of the fuel-indexed embedding: `fuelOut` models running out
of fuel (never happens in the Rust source, whose loops terminate), `panicked`
models a Rust panic (`unwrap`, `assert!`, map indexing). -/
inductive Fail where
  | fuelOut : Fail
  | panicked : Fail
deriving DecidableEq, Repr

/-- The `for` loop of `DState::from_nfa_states` searching the sorted,
deduplicated state set for the first accepting payload (it `break`s at the
first hit instead of aborting on later ones). -/
def firstAccepting (nfa : Nfa) : List Nat → Option String
  | [] => none
  | s :: rest =>
    match nfa.accepting s with
    | some a => some a
    | none => firstAccepting nfa rest

/-- `DState::from_nfa_states`: sort and dedup the NFA set, take the first
accepting payload in index order. -/
def dstateFromNfaStates (nfa : Nfa) (ns : List Nat) : DTmp :=
  let ns' := sortDedup ns
  { nfaStates := ns', dstate := { moves := [], accepting := firstAccepting nfa ns' } }

/-- The scan of `Dfa::find_intersection` over consecutive keys of the sorted
map. -/
def findIntersectionGo (a : Interval) : List Interval → Option (Interval × Interval)
  | [] => none
  | b :: rest => if a.intersectsb b then some (a, b) else findIntersectionGo b rest

/-- `Dfa::find_intersection`: first pair of adjacent intersecting keys. -/
def findIntersection (m : MoveMap) : Option (Interval × Interval) :=
  match mapKeys m with
  | [] => none
  | k :: rest => findIntersectionGo k rest

/-- Insert an optional split piece into a move map. -/
def insOpt (o : Option Interval) (v : List Nat) (m : MoveMap) : MoveMap :=
  match o with
  | some i => mapInsert Interval.ltb i v m
  | none => m

/-- The body of the `while let` loop of `Dfa::resolve_intersections`: remove
the two intersecting keys and re-insert the split pieces. The `unwrap`s of
the source are the `panicked` branches. -/
def splitOnce (m : MoveMap) (a b : Interval) : Except Fail MoveMap :=
  match mapGet? a m with
  | none => .error .panicked
  | some aStates =>
    let m := mapRemove a m
    match mapGet? b m with
    | none => .error .panicked
    | some bStates =>
      let m := mapRemove b m
      let abStates := sortDedup (aStates ++ bStates)
      match Interval.intersect a b with
      | (left, interOpt, right) =>
        match interOpt with
        | none => .error .panicked
        | some inter =>
          let m := mapInsert Interval.ltb inter abStates m
          let m := insOpt right (if b.last < a.last then aStates else bStates) m
          let m := insOpt left aStates m
          .ok m

/-- `Dfa::resolve_intersections` as fuel-indexed iteration of `splitOnce`. -/
def resolveFuel : Nat → MoveMap → Except Fail MoveMap
  | 0, _ => .error .fuelOut
  | fuel + 1, m =>
    match findIntersection m with
    | none => .ok m
    | some (a, b) =>
      match splitOnce m a b with
      | .error e => .error e
      | .ok m' => resolveFuel fuel m'

/-- Total interval size of a move set, the variant of the resolution loop. -/
def totalLen (m : MoveMap) : Nat := (m.map (fun p => p.1.size)).sum

/-- One entry of the `for (&transition, states) in &move_set` loop of
`Dfa::from_nfa`: find or create the target DFA state, record the move. -/
def processEntry (nfa : Nfa) (acc : List DTmp × List (Interval × Nat))
    (e : Interval × List Nat) : List DTmp × List (Interval × Nat) :=
  match acc, e with
  | (dstates, mv), (iv, tstates) =>
    match dstates.findIdx? (fun s => s.nfaStates = tstates) with
    | some pos => (dstates, mapInsert Interval.ltb iv pos mv)
    | none =>
      (dstates ++ [dstateFromNfaStates nfa tstates],
       mapInsert Interval.ltb iv dstates.length mv)

/-- Store the moves recorded for the state currently being expanded. -/
def setStateMoves (dstates : List DTmp) (cur : Nat) (mv : List (Interval × Nat)) :
    List DTmp :=
  match dstates.get? cur with
  | some d => dstates.set cur { d with dstate := { d.dstate with moves := mv } }
  | none => dstates

/-- The `while cur_state < dfa_states.len()` worklist loop of
`Dfa::from_nfa` (fuel-indexed). -/
def buildLoop (nfa : Nfa) (cfuel : Nat) : Nat → List DTmp → Nat → Except Fail (List DTmp)
  | 0, dstates, cur => if cur < dstates.length then .error .fuelOut else .ok dstates
  | fuel + 1, dstates, cur =>
    if cur < dstates.length then
      match dstates.get? cur with
      | none => .error .panicked
      | some d =>
        match nfa.getMoveSet cfuel d.nfaStates with
        | none => .error .fuelOut
        | some ms =>
          match resolveFuel (totalLen ms + 1) ms with
          | .error e => .error e
          | .ok ms' =>
            match ms'.foldl (processEntry nfa) (dstates, []) with
            | (dstates', mv) => buildLoop nfa cfuel fuel (setStateMoves dstates' cur mv) (cur + 1)
    else .ok dstates

/-! ### Minimisation (`Dfa::optimize`) -/

/-- The equivalence test of `Dfa::optimize` between the representative of a
subgroup and a candidate state: identical interval keys, then identical raw
targets (the `state.move_map()[i]` indexing is the `panicked` branch). -/
def equivCheckGo (state : DState) : List (Interval × Nat) → Except Fail Bool
  | [] => .ok true
  | (i, s) :: rest =>
    match mapGet? i state.moves with
    | none => .error .panicked
    | some other => if other ≠ s then .ok false else equivCheckGo state rest

/-- Whether `stateIdx` is equivalent to the representative `repIdx` per
`Dfa::optimize` (indexing `self.states` is the `panicked` branch). -/
def equivCheck (states : List DState) (repIdx stateIdx : Nat) : Except Fail Bool :=
  match states.get? repIdx, states.get? stateIdx with
  | some subState, some state =>
    if subState.moveIntervals ≠ state.moveIntervals then .ok false
    else equivCheckGo state subState.moves
  | _, _ => .error .panicked

/-- The `for sub in &mut next_partition[subgroup_start..]` search: place
`idx` into the first equivalent subgroup (`sub.first().unwrap()` is the
`panicked` branch). -/
def placeInSubgroup (states : List DState) :
    List (List Nat) → Nat → Except Fail (Option (List (List Nat)))
  | [], _ => .ok none
  | sub :: rest, idx =>
    match sub.head? with
    | none => .error .panicked
    | some rep =>
      match equivCheck states rep idx with
      | .error e => .error e
      | .ok true => .ok (some ((sub ++ [idx]) :: rest))
      | .ok false =>
        match placeInSubgroup states rest idx with
        | .error e => .error e
        | .ok (some rest') => .ok (some (sub :: rest'))
        | .ok none => .ok none

/-- Refine one group of the partition into subgroups: each member joins the
first equivalent subgroup or starts a new one. -/
def refineGroupGo (states : List DState) :
    List Nat → List (List Nat) → Except Fail (List (List Nat))
  | [], subs => .ok subs
  | idx :: rest, subs =>
    match placeInSubgroup states subs idx with
    | .error e => .error e
    | .ok (some subs') => refineGroupGo states rest subs'
    | .ok none => refineGroupGo states rest (subs ++ [[idx]])

/-- Refine one group of the partition, starting from no subgroups. -/
def refineGroup (states : List DState) (group : List Nat) :
    Except Fail (List (List Nat)) :=
  refineGroupGo states group []

/-- One refinement pass over all groups, concatenating the subgroups. -/
def refinePassGo (states : List DState) :
    List (List Nat) → List (List Nat) → Except Fail (List (List Nat))
  | [], acc => .ok acc
  | g :: rest, acc =>
    match refineGroup states g with
    | .error e => .error e
    | .ok subs => refinePassGo states rest (acc ++ subs)

/-- One refinement pass over all groups. -/
def refinePass (states : List DState) (partition : List (List Nat)) :
    Except Fail (List (List Nat)) :=
  refinePassGo states partition []

/-- The `while needs_loop` refinement loop of `Dfa::optimize`: iterate while
the group count changes. -/
def optimizeLoop (states : List DState) : Nat → List (List Nat) → Except Fail (List (List Nat))
  | 0, _ => .error .fuelOut
  | fuel + 1, partition =>
    match refinePass states partition with
    | .error e => .error e
    | .ok next =>
      if partition.length ≠ next.length then optimizeLoop states fuel next
      else .ok next

/-- `Dfa::optimize` up to its final partition: seed with
`[accepting, non_accepting]` and refine. The source computes this partition,
prints it, and returns without modifying `self.states`. -/
def optimizePartition (fuel : Nat) (d : Dfa) : Except Fail (List (List Nat)) :=
  let idx := List.range d.states.length
  let accepting := idx.filter (fun i => ((d.states.get? i).map DState.isAcceptingD).getD false)
  let nonAccepting := idx.filter (fun i => !((d.states.get? i).map DState.isAcceptingD).getD false)
  optimizeLoop d.states fuel [accepting, nonAccepting]

/-- `Dfa::from_nfa`: subset construction from the epsilon closure of state 0,
followed by the `optimize` pass (which computes its partition but leaves the
states untouched). -/
def fromNfa (fuel : Nat) (nfa : Nfa) : Except Fail Dfa :=
  match nfa.epsilonClosure fuel [0] with
  | none => .error .fuelOut
  | some epsi0 =>
    match buildLoop nfa fuel fuel [dstateFromNfaStates nfa epsi0] 0 with
    | .error e => .error e
    | .ok dstates =>
      let d : Dfa := ⟨dstates.map (·.dstate)⟩
      match optimizePartition fuel d with
      | .error e => .error e
      | .ok _ => .ok d

/-! ### Acceptance -/

/-- One step of the emitted matcher's table walk: the unique move of the
current DFA state whose interval contains the code point. -/
def dfaStep (d : Dfa) (cur : Nat) (c : Nat) : Option Nat :=
  match d.states.get? cur with
  | none => none
  | some st => (st.moves.find? (fun p => p.1.containsPt c)).map (·.2)

/-- DFA acceptance in the sense of the specification: the table walk from
state 0 consumes all of `s` and ends in an accepting state. -/
def dfaAccepts (d : Dfa) (s : List Nat) : Bool :=
  match s.foldlM (dfaStep d) 0 with
  | none => false
  | some st => ((d.states.get? st).map DState.isAcceptingD).getD false

/-- Modelled from the spec: one step of NFA subset simulation. The repo has
no NFA run function; per the specification the successor of a subset on code
point `c` is the union of the `get_move_set` entries whose interval contains
`c` (each entry is already epsilon-closed). -/
def nfaSimStep (fuel : Nat) (nfa : Nfa) (states : List Nat) (c : Nat) :
    Option (List Nat) :=
  match nfa.getMoveSet fuel states with
  | none => none
  | some ms =>
    some (sortDedup ((ms.filter (fun p => p.1.containsPt c)).foldl
      (fun acc p => acc ++ p.2) []))

/-- Modelled from the spec: NFA acceptance ("the NFA accepts `s`") by subset
simulation starting from the epsilon closure of state 0, accepting when the
final subset contains a state with an accepting payload. -/
def nfaSimAccepts (fuel : Nat) (nfa : Nfa) (s : List Nat) : Option Bool :=
  match nfa.epsilonClosure fuel [0] with
  | none => none
  | some s0 =>
    match s.foldlM (nfaSimStep fuel nfa) (sortDedup s0) with
    | none => none
    | some sf => some (sf.any (fun st => (nfa.accepting st).isSome))

/-! ### Shared helper notions -/

/-- Two intervals share no code point. -/
def ivDisjoint (a b : Interval) : Prop :=
  ∀ c, ¬(a.containsPt c = true ∧ b.containsPt c = true)

/-- Intervals reported non-intersecting by the source predicate share no
code point. -/
theorem ivDisjoint_of_not_intersectsb {a b : Interval}
    (h : a.intersectsb b = false) : ivDisjoint a b := by
  intro c hc
  simp only [Interval.intersectsb, Bool.and_eq_true, decide_eq_true_eq,
    Bool.and_eq_false_iff, decide_eq_false_iff_not] at h
  simp only [Interval.containsPt, Bool.and_eq_true, decide_eq_true_eq] at hc
  omega

/-- Well-formedness of a transition label: the interval of an `Input` label
is non-empty. -/
def TWf : Transition → Prop
  | .Input i => i.Wf
  | .Epsilon => True

instance (t : Transition) : Decidable (TWf t) := by
  cases t <;> unfold TWf <;> infer_instance

/-- Well-formedness of every input interval of an NFA. Rust guarantees this
for every `Nfa` value because `Interval`'s fields are private and all its
constructors establish `first <= last`. -/
def NfaWf (nfa : Nfa) : Prop :=
  ∀ st ∈ nfa.states, ∀ p ∈ st.moves, TWf p.1

instance (nfa : Nfa) : Decidable (NfaWf nfa) := by
  unfold NfaWf; infer_instance

/-- Sorted and deduplicated union of the values of the move-set entries
whose interval contains `c`. -/
def coveringUnion (orig : MoveMap) (c : Nat) : List Nat :=
  sortDedup ((orig.filter (fun p => p.1.containsPt c)).foldl (fun acc p => acc ++ p.2) [])

/-- The value of the first entry of a move set whose interval contains `c`. -/
def lookupPt (m : MoveMap) (c : Nat) : Option (List Nat) :=
  (m.find? (fun p => p.1.containsPt c)).map (·.2)

/-- Check that on every code point of `[lo, hi]` the resolved map `res`
yields exactly the union of the original entries covering that point. -/
def coversPts (orig res : MoveMap) (lo hi : Nat) : Bool :=
  ((List.range (hi + 1 - lo)).map (· + lo)).all
    (fun c => lookupPt res c = some (coveringUnion orig c))

/-! ### C1 -/

/-- The counterexample NFA for C1, built from the public constructors:
pattern `[0-5]` accepting `A`, combined with `[2-8][20]` accepting `B`,
combined with `[6-8][30]` accepting `C`. -/
def nfaC1 : Nfa :=
  (((Nfa.new ⟨0, 5⟩).concat (Nfa.newAccepting "A")).combine
    (((Nfa.new ⟨2, 8⟩).concat (Nfa.new ⟨20, 20⟩)).concat (Nfa.newAccepting "B"))).combine
    (((Nfa.new ⟨6, 8⟩).concat (Nfa.new ⟨30, 30⟩)).concat (Nfa.newAccepting "C"))

/-- C1: refuted by the code — the NFA accepts the string `[6, 30]` (through
pattern `C`) but the DFA built by `Dfa::from_nfa` rejects it. The cause is in
`resolve_intersections`: splitting `[0-5]`/`[2-8]` re-inserts the right
fragment `[6-8] -> {3}` with `BTreeMap::insert`, silently overwriting the
pre-existing entry `[6-8] -> {6}` and dropping NFA state 6, so the DFA state
reached on input 6 has no transition on 30. -/
theorem c1_nfa_dfa_equivalence_code_bug :
    nfaSimAccepts 50 nfaC1 [6, 30] = some true ∧
    (fromNfa 50 nfaC1).map (fun d => dfaAccepts d [6, 30]) = .ok false := by
  exact ⟨rfl, rfl⟩

/-! ### C4 -/

/-- The S6 move set of the specification: four overlapping ranges with four
distinct target sets. -/
def ex4 : MoveMap :=
  [(⟨0, 5⟩, [0]), (⟨2, 8⟩, [1]), (⟨4, 10⟩, [2]), (⟨7, 9⟩, [3])]

/-- The result of disjointifying `ex4`. -/
def ex4Res : MoveMap :=
  [(⟨0, 1⟩, [0]), (⟨2, 3⟩, [0, 1]), (⟨4, 5⟩, [0, 1, 2]), (⟨6, 6⟩, [1, 2]),
   (⟨7, 8⟩, [1, 2, 3]), (⟨9, 9⟩, [2, 3]), (⟨10, 10⟩, [2])]

/-- C4, counterexample: disjointifying the S6 move set yields seven
intervals, not the five the claim states. -/
theorem c4_five_intervals_refuted :
    (resolveFuel (totalLen ex4 + 1) ex4).map List.length = .ok 7 ∧
    (resolveFuel (totalLen ex4 + 1) ex4).map List.length ≠ .ok 5 := by
  exact ⟨rfl, by decide⟩

/-- C4, amended: disjointifying the S6 move set `{[0-5], [2-8], [4-10],
[7-9]}` (four distinct target sets) produces exactly seven pairwise-disjoint
intervals, and each resulting interval is mapped to the sorted, deduplicated
union of the original target sets whose interval covers its code points. -/
theorem c4_disjointify_seven_intervals :
    resolveFuel (totalLen ex4 + 1) ex4 = .ok ex4Res ∧
    ex4Res.length = 7 ∧
    (mapKeys ex4Res).Pairwise ivDisjoint ∧
    coversPts ex4 ex4Res 0 10 = true := by
  refine ⟨rfl, rfl, ?_, rfl⟩
  have h : (mapKeys ex4Res).Pairwise (fun a b => a.intersectsb b = false) := by decide
  exact h.imp (fun hab => ivDisjoint_of_not_intersectsb hab)

/-! ### C6 (counterexample part) -/

/-- A move set on which one splitting pass of `resolve_intersections`
neither increases the key count nor produces a disjoint key set. -/
def ex6 : MoveMap := [(⟨0, 5⟩, [0]), (⟨0, 8⟩, [1]), (⟨7, 9⟩, [2])]

/-- C6, counterexample: on `ex6` the first splitting pass removes `[0-5]`
and `[0-8]` and re-inserts only `[0-5]` and `[6-8]` (the left part is
empty), so the key count stays at three while `[6-8]` and `[7-9]` still
intersect — refuting "each splitting pass either strictly increases the
number of interval keys or leaves the key set pairwise disjoint". -/
theorem c6_pass_invariant_refuted :
    findIntersection ex6 = some (⟨0, 5⟩, ⟨0, 8⟩) ∧
    splitOnce ex6 ⟨0, 5⟩ ⟨0, 8⟩ =
      .ok [(⟨0, 5⟩, [0, 1]), (⟨6, 8⟩, [1]), (⟨7, 9⟩, [2])] ∧
    ([(⟨0, 5⟩, [0, 1]), (⟨6, 8⟩, [1]), (⟨7, 9⟩, [2])] : MoveMap).length = ex6.length ∧
    findIntersection [(⟨0, 5⟩, [0, 1]), (⟨6, 8⟩, [1]), (⟨7, 9⟩, [2])] =
      some (⟨6, 8⟩, ⟨7, 9⟩) := by
  exact ⟨rfl, rfl, rfl, rfl⟩

/-! ### C8 -/

/-- C8, counterexample: the derived ordering of `Transition` declares
`Input` before `Epsilon`, so `Epsilon` does not order before `Input` —
`Input([0,0])` orders strictly before `Epsilon`. -/
theorem c8_epsilon_first_refuted :
    Transition.ltb .Epsilon (.Input ⟨0, 0⟩) = false ∧
    Transition.ltb (.Input ⟨0, 0⟩) .Epsilon = true := by
  exact ⟨rfl, rfl⟩

/-- C8, amended: the total order on transition labels places `Epsilon`
strictly after every `Input` label, and orders two `Input` labels by the
lexicographic order on their intervals' `(first, last)` pairs. -/
theorem c8_transition_order (i j : Interval) :
    Transition.ltb (.Input i) .Epsilon = true ∧
    Transition.ltb .Epsilon (.Input i) = false ∧
    (Transition.ltb (.Input i) (.Input j) = true ↔
      i.first < j.first ∨ (i.first = j.first ∧ i.last < j.last)) := by
  refine ⟨rfl, rfl, ?_⟩
  simp [Transition.ltb, Interval.ltb]

/-! ### C9 -/

/-- An NFA whose DFA contains two states (`3` and `4`) that the refinement
loop of `Dfa::optimize` places in one stable group. -/
def nfaC9 : Nfa :=
  (((Nfa.new ⟨97, 97⟩).concat (Nfa.new ⟨98, 98⟩)).concat (Nfa.newAccepting "X")).combine
    (((Nfa.new ⟨99, 99⟩).concat (Nfa.new ⟨98, 98⟩)).concat (Nfa.newAccepting "Y"))

/-- The DFA `Dfa::from_nfa` returns for `nfaC9`. -/
def dfaC9 : Dfa :=
  ⟨[⟨[(⟨97, 97⟩, 1), (⟨99, 99⟩, 2)], none⟩,
    ⟨[(⟨98, 98⟩, 3)], none⟩,
    ⟨[(⟨98, 98⟩, 4)], none⟩,
    ⟨[], some "X"⟩,
    ⟨[], some "Y"⟩]⟩

/-- C9: refuted by the code — `Dfa::optimize` refines its partition to the
stable value `[[3, 4], [0], [1], [2]]`, whose first group holds the two
equivalent accepting states, but it never rewrites `self.states` (the
function only prints the partition), so `Dfa::from_nfa` returns all five
unminimised states and no state is replaced by its group representative. -/
theorem c9_optimize_no_replacement :
    fromNfa 50 nfaC9 = .ok dfaC9 ∧
    dfaC9.states.length = 5 ∧
    optimizePartition 50 dfaC9 = .ok [[3, 4], [0], [1], [2]] ∧
    dfaC9.states.get? 3 ≠ dfaC9.states.get? 4 := by
  exact ⟨rfl, rfl, rfl, by decide⟩

/-! ### C5 -/

/-- Membership of a code point in an optional interval part. -/
def inOpt (o : Option Interval) (c : Nat) : Bool :=
  (o.map (fun i => i.containsPt c)).getD false

/-- Specification of `intersectCore` on an ordered pair of well-formed
intervals: the present parts are pairwise disjoint, they cover exactly the
union of the operands, and the middle part lies inside both operands. -/
theorem intersectCore_spec (a b : Interval) (ha : a.Wf) (hb : b.Wf)
    (haU : a.last ≤ UMAX) (hbU : b.last ≤ UMAX) (hf : a.first ≤ b.first) :
    (∀ c, (inOpt (intersectCore a b).1 c = true ∨ inOpt (intersectCore a b).2.1 c = true ∨
        inOpt (intersectCore a b).2.2 c = true) ↔
      (a.containsPt c = true ∨ b.containsPt c = true)) ∧
    (∀ c, ¬(inOpt (intersectCore a b).1 c = true ∧ inOpt (intersectCore a b).2.1 c = true)) ∧
    (∀ c, ¬(inOpt (intersectCore a b).1 c = true ∧ inOpt (intersectCore a b).2.2 c = true)) ∧
    (∀ c, ¬(inOpt (intersectCore a b).2.1 c = true ∧ inOpt (intersectCore a b).2.2 c = true)) ∧
    (∀ i, (intersectCore a b).2.1 = some i → ∀ c, i.containsPt c = true →
      a.containsPt c = true ∧ b.containsPt c = true) := by
  have hU : UMAX = 4294967295 := rfl
  unfold Interval.Wf at ha hb
  rw [hU] at haU hbU
  cases hi : a.intersectsb b with
  | false =>
    have hi' := ivDisjoint_of_not_intersectsb hi
    simp only [intersectCore, hi, Bool.not_false, if_true]
    refine ⟨?_, ?_, ?_, ?_, ?_⟩
    · intro c; simp [inOpt]
    · intro c; simp [inOpt]
    · intro c hc
      exact hi' c (by simpa [inOpt] using hc)
    · intro c; simp [inOpt]
    · intro i hi2; simp at hi2
  | true =>
    have hi12 : a.first ≤ b.last ∧ b.first ≤ a.last := by
      simpa only [Interval.intersectsb, Bool.and_eq_true, decide_eq_true_eq] using hi
    obtain ⟨hi1, hi2⟩ := hi12
    simp only [intersectCore, hi, Bool.not_true, Bool.false_eq_true, if_false, maybeI, hU]
    refine ⟨?_, ?_, ?_, ?_, ?_⟩
    · intro c
      split_ifs <;>
        simp only [inOpt, Option.map_some', Option.map_none', Option.getD_some,
          Option.getD_none, Interval.containsPt, Bool.and_eq_true, decide_eq_true_eq,
          Bool.false_eq_true, false_or, or_false] <;>
        omega
    · intro c
      split_ifs <;>
        simp only [inOpt, Option.map_some', Option.map_none', Option.getD_some,
          Option.getD_none, Interval.containsPt, Bool.and_eq_true, decide_eq_true_eq,
          Bool.false_eq_true, not_and, and_imp, false_implies, implies_true,
          not_false_eq_true] <;>
        omega
    · intro c
      split_ifs <;>
        simp only [inOpt, Option.map_some', Option.map_none', Option.getD_some,
          Option.getD_none, Interval.containsPt, Bool.and_eq_true, decide_eq_true_eq,
          Bool.false_eq_true, not_and, and_imp, false_implies, implies_true,
          not_false_eq_true] <;>
        omega
    · intro c
      split_ifs <;>
        simp only [inOpt, Option.map_some', Option.map_none', Option.getD_some,
          Option.getD_none, Interval.containsPt, Bool.and_eq_true, decide_eq_true_eq,
          Bool.false_eq_true, not_and, and_imp, false_implies, implies_true,
          not_false_eq_true] <;>
        omega
    · intro i hi3 c hc
      split_ifs at hi3 <;>
        simp only [Option.some.injEq] at hi3 <;>
        first
        | exact absurd hi3 (by simp)
        | (subst hi3
           simp only [Interval.containsPt, Bool.and_eq_true, decide_eq_true_eq] at hc ⊢
           omega)

/-- The derived interval order gives `first <= first`. -/
theorem first_le_of_ltb {a b : Interval} (h : Interval.ltb a b = true) :
    a.first ≤ b.first := by
  simp only [Interval.ltb, Bool.or_eq_true, Bool.and_eq_true, decide_eq_true_eq] at h
  omega

/-- The derived interval order gives `first <= first` also when it fails. -/
theorem first_le_of_not_ltb {a b : Interval} (h : Interval.ltb a b = false) :
    b.first ≤ a.first := by
  simp only [Interval.ltb, Bool.or_eq_false_iff, Bool.and_eq_false_iff,
    decide_eq_false_iff_not] at h
  omega

/-- C5: for any two well-formed intervals `a` and `b`, with
`(l, m, r) = a.intersect(b)`, the present parts are pairwise disjoint, the
union of their code points equals the union of the code points of `a` and
`b`, and `m`, when present, is contained in both `a` and `b`. -/
theorem c5_intersect_round_trip (a b : Interval) (ha : a.Wf) (hb : b.Wf)
    (haU : a.last ≤ UMAX) (hbU : b.last ≤ UMAX) :
    (∀ c, (inOpt (a.intersect b).1 c = true ∨ inOpt (a.intersect b).2.1 c = true ∨
        inOpt (a.intersect b).2.2 c = true) ↔
      (a.containsPt c = true ∨ b.containsPt c = true)) ∧
    (∀ c, ¬(inOpt (a.intersect b).1 c = true ∧ inOpt (a.intersect b).2.1 c = true)) ∧
    (∀ c, ¬(inOpt (a.intersect b).1 c = true ∧ inOpt (a.intersect b).2.2 c = true)) ∧
    (∀ c, ¬(inOpt (a.intersect b).2.1 c = true ∧ inOpt (a.intersect b).2.2 c = true)) ∧
    (∀ i, (a.intersect b).2.1 = some i → ∀ c, i.containsPt c = true →
      a.containsPt c = true ∧ b.containsPt c = true) := by
  cases hlt : Interval.ltb a b with
  | true =>
    have h := intersectCore_spec a b ha hb haU hbU (first_le_of_ltb hlt)
    simpa only [Interval.intersect, hlt, if_true] using h
  | false =>
    have h := intersectCore_spec b a hb ha hbU haU (first_le_of_not_ltb hlt)
    simp only [Interval.intersect, hlt, Bool.false_eq_true, if_false]
    obtain ⟨h1, h2, h3, h4, h5⟩ := h
    refine ⟨?_, h2, h3, h4, ?_⟩
    · intro c; rw [h1 c, or_comm]
    · intro i hi c hc
      exact ⟨(h5 i hi c hc).2, (h5 i hi c hc).1⟩

/-- C5 witness: the theorem applied to the concrete intervals `[0,5]` and
`[3,8]`. -/
theorem c5_witness :
    (Interval.Wf ⟨0, 5⟩ ∧ Interval.Wf ⟨3, 8⟩ ∧
      (⟨0, 5⟩ : Interval).last ≤ UMAX ∧ (⟨3, 8⟩ : Interval).last ≤ UMAX) ∧
    (∀ c, (inOpt ((⟨0, 5⟩ : Interval).intersect ⟨3, 8⟩).1 c = true ∨
        inOpt ((⟨0, 5⟩ : Interval).intersect ⟨3, 8⟩).2.1 c = true ∨
        inOpt ((⟨0, 5⟩ : Interval).intersect ⟨3, 8⟩).2.2 c = true) ↔
      ((⟨0, 5⟩ : Interval).containsPt c = true ∨ (⟨3, 8⟩ : Interval).containsPt c = true)) := by
  refine ⟨⟨by decide, by decide, by decide, by decide⟩, ?_⟩
  exact (c5_intersect_round_trip ⟨0, 5⟩ ⟨3, 8⟩ (by decide) (by decide)
    (by decide) (by decide)).1

/-! ### C2 -/

/-- Sorting preserves membership. -/
theorem mem_sortNat {x : Nat} {l : List Nat} : x ∈ sortNat l ↔ x ∈ l := by
  simp [sortNat]

/-- The sort is sorted. -/
theorem sorted_sortNat (l : List Nat) : (sortNat l).Sorted (· ≤ ·) :=
  List.sorted_insertionSort _ l

/-- Consecutive deduplication preserves membership. -/
theorem mem_dedupAdj : ∀ (l : List Nat) (x : Nat), x ∈ dedupAdj l ↔ x ∈ l
  | [], x => by simp [dedupAdj]
  | [a], x => by simp [dedupAdj]
  | a :: b :: rest, x => by
    by_cases h : a = b
    · rw [show dedupAdj (a :: b :: rest) = dedupAdj (b :: rest) by
        simp [dedupAdj, h]]
      rw [mem_dedupAdj (b :: rest) x, h]
      simp
    · rw [show dedupAdj (a :: b :: rest) = a :: dedupAdj (b :: rest) by
        simp [dedupAdj, h]]
      simp [mem_dedupAdj (b :: rest) x]

/-- Consecutive deduplication preserves sortedness. -/
theorem sorted_dedupAdj : ∀ l : List Nat, l.Sorted (· ≤ ·) →
    (dedupAdj l).Sorted (· ≤ ·)
  | [], _ => by simp [dedupAdj]
  | [a], _ => by simp [dedupAdj]
  | a :: b :: rest, h => by
    have htail : (b :: rest).Sorted (· ≤ ·) := h.of_cons
    by_cases hab : a = b
    · rw [show dedupAdj (a :: b :: rest) = dedupAdj (b :: rest) by
        simp [dedupAdj, hab]]
      exact sorted_dedupAdj (b :: rest) htail
    · rw [show dedupAdj (a :: b :: rest) = a :: dedupAdj (b :: rest) by
        simp [dedupAdj, hab]]
      rw [List.sorted_cons]
      refine ⟨?_, sorted_dedupAdj (b :: rest) htail⟩
      intro y hy
      exact (List.sorted_cons.mp h).1 y ((mem_dedupAdj (b :: rest) y).mp hy)

/-- `sortDedup` preserves membership. -/
theorem mem_sortDedup {x : Nat} {l : List Nat} : x ∈ sortDedup l ↔ x ∈ l := by
  rw [sortDedup, mem_dedupAdj, mem_sortNat]

/-- `sortDedup` sorts. -/
theorem sorted_sortDedup (l : List Nat) : (sortDedup l).Sorted (· ≤ ·) :=
  sorted_dedupAdj _ (sorted_sortNat l)

/-- The first-accepting scan returns nothing iff no member accepts. -/
theorem firstAccepting_eq_none (nfa : Nfa) :
    ∀ l : List Nat, (firstAccepting nfa l = none ↔ ∀ s ∈ l, nfa.accepting s = none)
  | [] => by simp [firstAccepting]
  | s :: rest => by
    cases hs : nfa.accepting s with
    | some a => simp [firstAccepting, hs]
    | none => simp [firstAccepting, hs, firstAccepting_eq_none nfa rest]

/-- On a sorted list the first-accepting scan returns exactly the payload of
the smallest accepting member. -/
theorem firstAccepting_sorted (nfa : Nfa) :
    ∀ l : List Nat, l.Sorted (· ≤ ·) → ∀ p : String,
      (firstAccepting nfa l = some p ↔
        ∃ s ∈ l, nfa.accepting s = some p ∧ ∀ t ∈ l, t < s → nfa.accepting t = none)
  | [], _, p => by simp [firstAccepting]
  | s :: rest, h, p => by
    have htail := h.of_cons
    cases hs : nfa.accepting s with
    | some a =>
      simp only [firstAccepting, hs, Option.some.injEq]
      constructor
      · rintro rfl
        refine ⟨s, List.mem_cons_self s rest, hs, ?_⟩
        intro t ht hts
        rcases List.mem_cons.mp ht with rfl | ht'
        · omega
        · have := (List.sorted_cons.mp h).1 t ht'
          omega
      · rintro ⟨t, ht, hta, hmin⟩
        rcases List.mem_cons.mp ht with rfl | ht'
        · rw [hs] at hta
          exact (Option.some.injEq _ _).mp hta
        · have hle : s ≤ t := (List.sorted_cons.mp h).1 t ht'
          rcases eq_or_lt_of_le hle with rfl | hlt
          · rw [hs] at hta
            exact (Option.some.injEq _ _).mp hta
          · rw [hmin s (List.mem_cons_self s rest) hlt] at hs
            cases hs
    | none =>
      simp only [firstAccepting, hs]
      rw [firstAccepting_sorted nfa rest htail p]
      constructor
      · rintro ⟨t, ht, hta, hmin⟩
        refine ⟨t, List.mem_cons_of_mem _ ht, hta, ?_⟩
        intro u hu hus
        rcases List.mem_cons.mp hu with rfl | hu'
        · exact hs
        · exact hmin u hu' hus
      · rintro ⟨t, ht, hta, hmin⟩
        rcases List.mem_cons.mp ht with rfl | ht'
        · rw [hs] at hta; cases hta
        · exact ⟨t, ht', hta, fun u hu hus => hmin u (List.mem_cons_of_mem _ hu) hus⟩

/-- C2: `DState::from_nfa_states` sorts and deduplicates the NFA state set
and stores as the DFA state's payload the payload of the accepting NFA state
with the lowest index in the set — no payload when no member accepts, and no
abort when several members accept (the scan `break`s at the first hit). For
NFAs built with `combine`, whose earlier operand occupies the lower indices,
this is the pattern combined first. -/
theorem c2_dstate_lowest_index_payload (nfa : Nfa) (ns : List Nat) :
    (dstateFromNfaStates nfa ns).nfaStates = sortDedup ns ∧
    ((dstateFromNfaStates nfa ns).dstate.accepting = none ↔
      ∀ s ∈ ns, nfa.accepting s = none) ∧
    (∀ p, (dstateFromNfaStates nfa ns).dstate.accepting = some p ↔
      ∃ s ∈ ns, nfa.accepting s = some p ∧ ∀ t ∈ ns, t < s → nfa.accepting t = none) := by
  have hacc : (dstateFromNfaStates nfa ns).dstate.accepting =
      firstAccepting nfa (sortDedup ns) := rfl
  refine ⟨rfl, ?_, ?_⟩
  · rw [hacc, firstAccepting_eq_none]
    constructor
    · intro h s hsmem
      exact h s (mem_sortDedup.mpr hsmem)
    · intro h s hsmem
      exact h s (mem_sortDedup.mp hsmem)
  · intro p
    rw [hacc, firstAccepting_sorted nfa (sortDedup ns) (sorted_sortDedup ns) p]
    constructor
    · rintro ⟨s, hsmem, hsa, hmin⟩
      exact ⟨s, mem_sortDedup.mp hsmem, hsa,
        fun t ht hts => hmin t (mem_sortDedup.mpr ht) hts⟩
    · rintro ⟨s, hsmem, hsa, hmin⟩
      exact ⟨s, mem_sortDedup.mpr hsmem, hsa,
        fun t ht hts => hmin t (mem_sortDedup.mp ht) hts⟩

/-! ### C7 -/

/-- The worklist extension step never drops seen states. -/
theorem closureExtend_mem (x : Nat) :
    ∀ (ts : List Nat) (acc : List Nat × List Nat),
      x ∈ acc.1 → x ∈ (closureExtend acc ts).1
  | [], _, hx => hx
  | t :: ts, acc, hx => by
    simp only [closureExtend, List.foldl_cons] at *
    split
    · exact closureExtend_mem x ts acc hx
    · exact closureExtend_mem x ts _ (List.mem_append_left _ hx)

/-- The worklist extension step records every processed target. -/
theorem closureExtend_mem_self (x : Nat) :
    ∀ (ts : List Nat) (acc : List Nat × List Nat),
      x ∈ ts → x ∈ (closureExtend acc ts).1
  | [], _, hx => by cases hx
  | t :: ts, acc, hx => by
    simp only [closureExtend, List.foldl_cons] at *
    rcases List.mem_cons.mp hx with rfl | hx'
    · split
      · next hmem => exact closureExtend_mem x ts acc hmem
      · exact closureExtend_mem x ts _ (List.mem_append_right _ (List.mem_singleton.mpr rfl))
    · split
      · exact closureExtend_mem_self x ts acc hx'
      · exact closureExtend_mem_self x ts _ hx'

/-- The closure worklist loop only grows the seen set. -/
theorem closureLoop_mem (nfa : Nfa) (x : Nat) :
    ∀ (fuel : Nat) (epsi rem r : List Nat),
      closureLoop nfa fuel epsi rem = some r → x ∈ epsi → x ∈ r := by
  intro fuel
  induction fuel with
  | zero =>
    intro epsi rem r h hx
    cases rem with
    | nil => simp only [closureLoop, Option.some.injEq] at h; subst h; exact hx
    | cons s rest => simp only [closureLoop] at h; exact Option.noConfusion h
  | succ f ih =>
    intro epsi rem r h hx
    cases rem with
    | nil => simp only [closureLoop, Option.some.injEq] at h; subst h; exact hx
    | cons s rest =>
      simp only [closureLoop] at h
      exact ih _ _ _ h (closureExtend_mem x _ (epsi, rest) hx)

/-- Every epsilon target of the first worklist entry reaches the result. -/
theorem closureLoop_step_mem (nfa : Nfa) (x : Nat) (fuel : Nat)
    (epsi rem r : List Nat) (s : Nat)
    (h : closureLoop nfa (fuel + 1) epsi (s :: rem) = some r)
    (hx : x ∈ nfa.transitions s .Epsilon) : x ∈ r := by
  simp only [closureLoop] at h
  exact closureLoop_mem nfa x _ _ _ _ h
    (closureExtend_mem_self x _ (epsi, rem) hx)

/-- Casting a small non-negative value through the `as usize` round trip is
plain truncation. -/
theorem castUsize_eq (i : Int) (h0 : 0 ≤ i) (h : i < (USIZE : Nat)) :
    castUsize i = i.toNat := by
  unfold castUsize
  rw [Int.emod_eq_of_lt h0 (by exact_mod_cast h)]

/-- C7: `star()` on an NFA with `n >= 1` states prepends an entry whose
epsilon offsets are exactly `[+1, +(n+2)]` (old entry, terminal) and appends
an exit at index `n + 1` whose epsilon offsets are exactly `[+1, -n]`
(terminal, old entry), shifting the original states up by one; and the
epsilon closure of state 0 of the starred NFA contains the implicit terminal
`n + 2` whenever the closure computation returns — the sense in which
`a.star()` accepts the empty string. -/
theorem c7_star_structure (a : Nfa) (h1 : 1 ≤ a.states.length)
    (h2 : a.states.length + 2 < USIZE) :
    (a.star).states.length = a.states.length + 2 ∧
    (a.star).states.get? 0 =
      some (NState.new.setMoves .Epsilon [1, (a.states.length : Int) + 2]) ∧
    (a.star).states.get? (a.states.length + 1) =
      some (NState.new.setMoves .Epsilon [1, -(a.states.length : Int)]) ∧
    (∀ i, i < a.states.length → (a.star).states.get? (i + 1) = a.states.get? i) ∧
    (∀ fuel r, (a.star).epsilonClosure fuel [0] = some r →
      a.states.length + 2 ∈ r) := by
  have hcast : ((a.states ++
      [NState.new.setMoves .Epsilon [1, -(a.states.length : Int)]]).length : Int) + 1 =
      (a.states.length : Int) + 2 := by
    simp [List.length_append]
    push_cast
    ring
  have hget : (a.star).states.get? 0 =
      some (NState.new.setMoves .Epsilon [1, (a.states.length : Int) + 2]) := by
    simp [Nfa.star, add_assoc]
  refine ⟨?_, hget, ?_, ?_, ?_⟩
  · simp [Nfa.star, List.length_append]
  · simp only [Nfa.star, List.get?_cons_succ]
    rw [List.get?_concat_length]
  · intro i hi
    simp only [Nfa.star, List.get?_cons_succ]
    rw [List.get?_append hi]
  · intro fuel r hcl
    cases fuel with
    | zero =>
      simp only [Nfa.epsilonClosure, closureLoop] at hcl
      exact Option.noConfusion hcl
    | succ f =>
      refine closureLoop_step_mem (a.star) _ f [0] [] r 0 hcl ?_
      have htr : (a.star).transitions 0 .Epsilon = [1, a.states.length + 2] := by
        simp only [Nfa.transitions, hget, NState.getMoves, NState.setMoves, NState.new,
          mapInsert, mapGet?, List.find?, List.map_cons, List.map_nil, decide_True,
          Option.map_some', Option.getD_some, Nat.cast_zero, zero_add]
        rw [castUsize_eq _ (by norm_num) (by norm_num [USIZE]),
          castUsize_eq _ (by positivity) (by push_cast; exact_mod_cast h2)]
        simp only [List.cons.injEq, List.nil_eq, and_true]
        constructor
        · omega
        · omega
      rw [htr]
      simp

/-- C7 witness: the theorem applied to the one-state NFA matching `[a]`. -/
theorem c7_witness :
    (1 ≤ (Nfa.new ⟨97, 97⟩).states.length ∧
      (Nfa.new ⟨97, 97⟩).states.length + 2 < USIZE) ∧
    ((Nfa.new ⟨97, 97⟩).star).states.length = (Nfa.new ⟨97, 97⟩).states.length + 2 := by
  refine ⟨⟨by decide, by norm_num [Nfa.new, USIZE]⟩, ?_⟩
  exact (c7_star_structure (Nfa.new ⟨97, 97⟩) (by decide)
    (by norm_num [Nfa.new, USIZE])).1

/-! ### Sorted-map machinery for the resolution loop -/

/-- Keys of a move map are strictly increasing in the derived order. -/
def SortedKeys {α : Type} (m : List (Interval × α)) : Prop :=
  (mapKeys m).Pairwise (fun a b => Interval.ltb a b = true)

/-- All keys of a move map are well-formed. -/
def WfKeys {α : Type} (m : List (Interval × α)) : Prop :=
  ∀ k ∈ mapKeys m, k.Wf

/-- The derived interval order is transitive. -/
theorem ltb_trans {a b c : Interval} (h1 : Interval.ltb a b = true)
    (h2 : Interval.ltb b c = true) : Interval.ltb a c = true := by
  simp only [Interval.ltb, Bool.or_eq_true, Bool.and_eq_true, decide_eq_true_eq] at *
  omega

/-- The derived interval order is irreflexive. -/
theorem ltb_irrefl (a : Interval) : Interval.ltb a a = false := by
  simp only [Interval.ltb, Bool.or_eq_false_iff, Bool.and_eq_false_iff,
    decide_eq_false_iff_not]
  omega

/-- The derived interval order distinguishes distinct intervals. -/
theorem ne_of_ltb {a b : Interval} (h : Interval.ltb a b = true) : a ≠ b := by
  intro he
  subst he
  rw [ltb_irrefl] at h
  cases h

/-- Trichotomy for the derived interval order. -/
theorem eq_of_not_ltb {a b : Interval} (h1 : Interval.ltb a b = false)
    (h2 : Interval.ltb b a = false) : a = b := by
  cases a with
  | mk af al =>
    cases b with
    | mk bf bl =>
      simp only [Interval.ltb, Bool.or_eq_false_iff, Bool.and_eq_false_iff,
        decide_eq_false_iff_not] at h1 h2
      simp only [Interval.mk.injEq]
      omega

/-- Keys after an insert come from the inserted key or the old map. -/
theorem mem_keys_mapInsert {α : Type} {k' k : Interval} {v : α} :
    ∀ m : List (Interval × α), k' ∈ mapKeys (mapInsert Interval.ltb k v m) →
      k' = k ∨ k' ∈ mapKeys m
  | [], h => by simpa [mapInsert, mapKeys] using h
  | (k1, v1) :: rest, h => by
    simp only [mapInsert] at h
    split_ifs at h
    · simpa [mapKeys] using h
    · simp only [mapKeys, List.map_cons, List.mem_cons] at h
      rcases h with h | h
      · exact Or.inr (by simp [mapKeys, h])
      · rcases mem_keys_mapInsert rest h with h | h
        · exact Or.inl h
        · exact Or.inr (by simp [mapKeys] at h ⊢; exact Or.inr h)
    · simp only [mapKeys, List.map_cons, List.mem_cons] at h
      rcases h with h | h
      · exact Or.inl h
      · exact Or.inr (by simp [mapKeys] at h ⊢; exact Or.inr h)

/-- Insertion keeps the keys strictly sorted. -/
theorem sortedKeys_mapInsert {α : Type} (k : Interval) (v : α) :
    ∀ m : List (Interval × α), SortedKeys m →
      SortedKeys (mapInsert Interval.ltb k v m)
  | [], _ => by simp [SortedKeys, mapInsert, mapKeys]
  | (k1, v1) :: rest, h => by
    have h1 := (List.pairwise_cons.mp h).1
    have h2 := (List.pairwise_cons.mp h).2
    simp only [mapInsert]
    split_ifs with hlt1 hlt2
    · refine List.pairwise_cons.mpr ⟨?_, h⟩
      intro k2 hk2
      simp only [mapKeys, List.map_cons, List.mem_cons] at hk2
      rcases hk2 with rfl | hk2
      · exact hlt1
      · exact ltb_trans hlt1 (h1 k2 hk2)
    · refine List.pairwise_cons.mpr ⟨?_, sortedKeys_mapInsert k v rest h2⟩
      intro k2 hk2
      rcases mem_keys_mapInsert rest hk2 with rfl | hk2
      · exact hlt2
      · exact h1 k2 hk2
    · have hk : k = k1 := eq_of_not_ltb (by simpa using hlt1) (by simpa using hlt2)
      subst hk
      exact List.pairwise_cons.mpr ⟨h1, h2⟩

/-- Strictly sorted keys are distinct. -/
theorem nodup_keys_of_sorted {α : Type} {m : List (Interval × α)}
    (h : SortedKeys m) : (mapKeys m).Nodup :=
  h.imp (fun hab => ne_of_ltb hab)

/-- A present key can be looked up. -/
theorem mapGet?_mem {κ α : Type} [DecidableEq κ] {k : κ} :
    ∀ m : List (κ × α), k ∈ mapKeys m → ∃ v, mapGet? k m = some v
  | [], h => by simp [mapKeys] at h
  | (k1, v1) :: rest, h => by
    by_cases he : k1 = k
    · exact ⟨v1, by simp [mapGet?, List.find?, he]⟩
    · have hmem : k ∈ mapKeys rest := by
        simp only [mapKeys, List.map_cons, List.mem_cons] at h
        rcases h with rfl | h
        · exact absurd rfl he
        · exact h
      obtain ⟨v, hv⟩ := mapGet?_mem rest hmem
      exact ⟨v, by simpa [mapGet?, List.find?, he] using hv⟩

/-- Key membership after a removal. -/
theorem mem_keys_mapRemove {κ α : Type} [DecidableEq κ] {k' k : κ}
    (m : List (κ × α)) : k' ∈ mapKeys (mapRemove k m) ↔ k' ∈ mapKeys m ∧ k' ≠ k := by
  simp only [mapKeys, mapRemove, List.mem_map, List.mem_filter, Bool.not_eq_true',
    decide_eq_false_iff_not]
  constructor
  · rintro ⟨p, ⟨hm, hq⟩, rfl⟩
    exact ⟨⟨p, hm, rfl⟩, hq⟩
  · rintro ⟨⟨p, hm, rfl⟩, hne⟩
    exact ⟨p, ⟨hm, hne⟩, rfl⟩

/-- Removal keeps the keys strictly sorted. -/
theorem sortedKeys_mapRemove {α : Type} {k : Interval} {m : List (Interval × α)}
    (h : SortedKeys m) : SortedKeys (mapRemove k m) := by
  unfold SortedKeys mapKeys at h ⊢
  unfold mapRemove
  exact List.Pairwise.sublist (List.Sublist.map _ (List.filter_sublist m)) h

/-- Removing an absent key is the identity. -/
theorem mapRemove_eq_self {κ α : Type} [DecidableEq κ] {k : κ} :
    ∀ m : List (κ × α), k ∉ mapKeys m → mapRemove k m = m
  | [], _ => rfl
  | (k1, v1) :: rest, h => by
    have h1 : k1 ≠ k := by
      intro he
      exact h (by simp [mapKeys, he])
    have h2 : k ∉ mapKeys rest := by
      intro hm
      exact h (by simp [mapKeys] at hm ⊢; exact Or.inr hm)
    simp only [mapRemove, List.filter_cons,
      (show (decide (k1 = k)) = false by simpa using h1), Bool.not_false, if_true]
    exact congrArg (List.cons _) (mapRemove_eq_self rest h2)

/-- Removing a present key of a duplicate-free map removes its size. -/
theorem totalLen_mapRemove {k : Interval} :
    ∀ m : MoveMap, k ∈ mapKeys m → (mapKeys m).Nodup →
      totalLen m = k.size + totalLen (mapRemove k m)
  | [], h, _ => by simp [mapKeys] at h
  | (k1, v1) :: rest, h, hnd => by
    have hnd1 := (List.pairwise_cons.mp hnd).1
    have hnd2 := (List.pairwise_cons.mp hnd).2
    by_cases he : k1 = k
    · subst he
      have hnotin : k1 ∉ mapKeys rest := by
        intro hm
        exact hnd1 k1 hm rfl
      have hr : mapRemove k1 rest = rest := mapRemove_eq_self rest hnotin
      simp only [mapRemove, List.filter_cons, decide_True, Bool.not_true,
        Bool.false_eq_true, if_false]
      rw [show List.filter (fun p => !decide (p.1 = k1)) rest = rest from hr]
      simp [totalLen]
    · have hmem : k ∈ mapKeys rest := by
        simp only [mapKeys, List.map_cons, List.mem_cons] at h
        rcases h with rfl | h
        · exact absurd rfl he
        · exact h
      have hrec := totalLen_mapRemove rest hmem hnd2
      simp only [mapRemove, List.filter_cons,
        (show (decide (k1 = k)) = false by simpa using he), Bool.not_false, if_true]
      simp only [mapRemove, totalLen, List.map_cons, List.sum_cons] at hrec ⊢
      omega

/-- Insertion adds at most the size of the inserted key. -/
theorem totalLen_mapInsert_le (k : Interval) (v : List Nat) :
    ∀ m : MoveMap, totalLen (mapInsert Interval.ltb k v m) ≤ k.size + totalLen m
  | [] => by simp [mapInsert, totalLen]
  | (k1, v1) :: rest => by
    simp only [mapInsert]
    split_ifs
    · simp only [totalLen, List.map_cons, List.sum_cons]
      omega
    · have hrec := totalLen_mapInsert_le k v rest
      simp only [totalLen, List.map_cons, List.sum_cons] at hrec ⊢
      omega
    · simp only [totalLen, List.map_cons, List.sum_cons]
      omega

/-! ### Facts about `find_intersection` -/

/-- What a successful scan returns: an intersecting pair of members, in
order when the key list is sorted. -/
theorem findIntersectionGo_spec {x y : Interval} :
    ∀ (rest : List Interval) (a : Interval),
      findIntersectionGo a rest = some (x, y) →
      x.intersectsb y = true ∧ x ∈ a :: rest ∧ y ∈ rest ∧
        ((a :: rest).Pairwise (fun u v => Interval.ltb u v = true) →
          Interval.ltb x y = true)
  | [], a, h => by simp [findIntersectionGo] at h
  | b :: rest, a, h => by
    simp only [findIntersectionGo] at h
    split_ifs at h with hint
    · obtain ⟨rfl, rfl⟩ : a = x ∧ b = y := by
        simpa [Prod.ext_iff, eq_comm] using h
      refine ⟨hint, List.mem_cons_self a _, List.mem_cons_self b _, ?_⟩
      intro hp
      exact (List.pairwise_cons.mp hp).1 b (List.mem_cons_self b _)
    · obtain ⟨h1, h2, h3, h4⟩ := findIntersectionGo_spec rest b h
      refine ⟨h1, List.mem_cons_of_mem a h2, List.mem_cons_of_mem b h3, ?_⟩
      intro hp
      exact h4 (List.pairwise_cons.mp hp).2

/-- A successful `find_intersection` on a move map yields two member keys
that intersect, ordered when the map is sorted. -/
theorem findIntersection_some_spec {m : MoveMap} {a b : Interval}
    (h : findIntersection m = some (a, b)) :
    a.intersectsb b = true ∧ a ∈ mapKeys m ∧ b ∈ mapKeys m ∧
      (SortedKeys m → Interval.ltb a b = true) := by
  unfold findIntersection at h
  cases hk : mapKeys m with
  | nil => rw [hk] at h; cases h
  | cons k rest =>
    rw [hk] at h
    obtain ⟨h1, h2, h3, h4⟩ := findIntersectionGo_spec rest k h
    refine ⟨h1, h2, List.mem_cons_of_mem _ h3, ?_⟩
    intro hs
    unfold SortedKeys at hs
    rw [hk] at hs
    exact h4 hs

/-- A failed scan means no two adjacent keys intersect. -/
theorem findIntersectionGo_none :
    ∀ (rest : List Interval) (a : Interval), findIntersectionGo a rest = none →
      (a :: rest).Chain' (fun u v => u.intersectsb v = false)
  | [], a, _ => List.chain'_singleton a
  | b :: rest, a, h => by
    simp only [findIntersectionGo] at h
    split_ifs at h with hint
    · exact (List.chain'_cons.mpr
        ⟨by simpa using hint, findIntersectionGo_none rest b h⟩)

/-- A failed `find_intersection` means no two adjacent keys intersect. -/
theorem findIntersection_none_chain {m : MoveMap}
    (h : findIntersection m = none) :
    (mapKeys m).Chain' (fun u v => u.intersectsb v = false) := by
  unfold findIntersection at h
  cases hk : mapKeys m with
  | nil => simp
  | cons k rest =>
    rw [hk] at h
    exact findIntersectionGo_none rest k h

/-- Sorted, adjacent-disjoint, well-formed keys are pairwise disjoint. -/
theorem pairwise_disjoint_of_resolved :
    ∀ ks : List Interval, (∀ k ∈ ks, k.Wf) →
      ks.Pairwise (fun u v => Interval.ltb u v = true) →
      ks.Chain' (fun u v => u.intersectsb v = false) →
      ks.Pairwise ivDisjoint
  | [], _, _, _ => List.Pairwise.nil
  | [a], _, _, _ => by simp [List.pairwise_cons]
  | a :: b :: t, hwf, hp, hc => by
    have hpt := (List.pairwise_cons.mp hp).2
    have hct := List.chain'_cons.mp hc
    have hwft : ∀ k ∈ b :: t, k.Wf := fun k hk => hwf k (List.mem_cons_of_mem a hk)
    have ih := pairwise_disjoint_of_resolved (b :: t) hwft hpt hct.2
    refine List.pairwise_cons.mpr ⟨?_, ih⟩
    have hab : Interval.ltb a b = true :=
      (List.pairwise_cons.mp hp).1 b (List.mem_cons_self b _)
    have hbwf : b.Wf := hwf b (List.mem_cons_of_mem a (List.mem_cons_self b _))
    have hsep : a.last < b.first := by
      have hni := hct.1
      simp only [Interval.intersectsb, Bool.and_eq_false_iff,
        decide_eq_false_iff_not] at hni
      simp only [Interval.ltb, Bool.or_eq_true, Bool.and_eq_true,
        decide_eq_true_eq] at hab
      unfold Interval.Wf at hbwf
      omega
    intro y hy
    rcases List.mem_cons.mp hy with rfl | hy'
    · intro c hc2
      simp only [Interval.containsPt, Bool.and_eq_true, decide_eq_true_eq] at hc2
      omega
    · have hby : Interval.ltb b y = true :=
        (List.pairwise_cons.mp hpt).1 y hy'
      intro c hc2
      simp only [Interval.containsPt, Bool.and_eq_true, decide_eq_true_eq] at hc2
      simp only [Interval.ltb, Bool.or_eq_true, Bool.and_eq_true,
        decide_eq_true_eq] at hby
      omega

/-! ### The splitting step decreases the total key size -/

/-- Size of an optional interval piece. -/
def sizeOpt : Option Interval → Nat
  | none => 0
  | some i => i.size

/-- `maybe` only builds well-formed intervals. -/
theorem maybeI_wf {f l : Nat} {i : Interval} (h : maybeI f l = some i) : i.Wf := by
  unfold maybeI at h
  split_ifs at h with hfl
  cases h
  exact hfl

/-- Size of a `maybe` piece. -/
theorem sizeOpt_maybeI (f l : Nat) : sizeOpt (maybeI f l) = l + 1 - f := by
  unfold maybeI
  split_ifs with h
  · simp [sizeOpt, Interval.size]
  · simp only [sizeOpt]
    omega

/-- Well-formedness is preserved by insertion of a well-formed key. -/
theorem wfKeys_mapInsert {α : Type} {k : Interval} {v : α} {m : List (Interval × α)}
    (hw : WfKeys m) (hk : k.Wf) : WfKeys (mapInsert Interval.ltb k v m) := by
  intro k' hk'
  rcases mem_keys_mapInsert m hk' with rfl | hk'
  · exact hk
  · exact hw k' hk'

/-- Well-formedness is preserved by removal. -/
theorem wfKeys_mapRemove {α : Type} {k : Interval} {m : List (Interval × α)}
    (hw : WfKeys m) : WfKeys (mapRemove k m) := by
  intro k' hk'
  exact hw k' ((mem_keys_mapRemove m).mp hk').1

/-- Optional insertion keeps keys sorted. -/
theorem sortedKeys_insOpt {o : Option Interval} {v : List Nat} {m : MoveMap}
    (hs : SortedKeys m) : SortedKeys (insOpt o v m) := by
  cases o with
  | none => exact hs
  | some i => exact sortedKeys_mapInsert i v m hs

/-- Optional insertion keeps keys well-formed. -/
theorem wfKeys_insOpt {o : Option Interval} {v : List Nat} {m : MoveMap}
    (hw : WfKeys m) (ho : ∀ i, o = some i → i.Wf) : WfKeys (insOpt o v m) := by
  cases o with
  | none => exact hw
  | some i => exact wfKeys_mapInsert hw (ho i rfl)

/-- Optional insertion adds at most the piece's size. -/
theorem totalLen_insOpt_le (o : Option Interval) (v : List Nat) (m : MoveMap) :
    totalLen (insOpt o v m) ≤ sizeOpt o + totalLen m := by
  cases o with
  | none => simp [insOpt, sizeOpt]
  | some i => exact totalLen_mapInsert_le i v m

/-- The split of a found intersecting pair, written out: the middle is the
exact overlap and the left and right leftovers are the `maybe` pieces. -/
theorem intersect_of_found {a b : Interval} (hlt : Interval.ltb a b = true)
    (hint : a.intersectsb b = true) (hbwf : b.Wf) :
    Interval.intersect a b =
      ((if b.first > 0 then maybeI a.first (b.first - 1) else none),
       some ⟨b.first, min a.last b.last⟩,
       (if min a.last b.last < UMAX then
          maybeI (min a.last b.last + 1) (max a.last b.last)
        else none)) := by
  have hmid : b.first ≤ min a.last b.last := by
    simp only [Interval.intersectsb, Bool.and_eq_true, decide_eq_true_eq] at hint
    unfold Interval.Wf at hbwf
    omega
  unfold Interval.intersect intersectCore
  rw [hlt, if_pos rfl, hint]
  simp only [Bool.not_true, Bool.false_eq_true, if_false]
  rw [show maybeI b.first (min a.last b.last) = some ⟨b.first, min a.last b.last⟩ from by
    unfold maybeI; rw [if_pos hmid]]

/-- One splitting step of `resolve_intersections` on the pair found by
`find_intersection` succeeds and strictly decreases the total key size while
preserving sortedness and well-formedness. -/
theorem splitOnce_found {m : MoveMap} {a b : Interval}
    (hfind : findIntersection m = some (a, b)) (hs : SortedKeys m) (hw : WfKeys m) :
    ∃ m', splitOnce m a b = .ok m' ∧ SortedKeys m' ∧ WfKeys m' ∧
      totalLen m' < totalLen m := by
  obtain ⟨hint, hamem, hbmem, hord⟩ := findIntersection_some_spec hfind
  have hlt := hord hs
  have hne : a ≠ b := ne_of_ltb hlt
  have hawf : a.Wf := hw a hamem
  have hbwf : b.Wf := hw b hbmem
  obtain ⟨aS, haS⟩ := mapGet?_mem m hamem
  have hbmem1 : b ∈ mapKeys (mapRemove a m) :=
    (mem_keys_mapRemove m).mpr ⟨hbmem, fun he => hne he.symm⟩
  obtain ⟨bS, hbS⟩ := mapGet?_mem (mapRemove a m) hbmem1
  have hnd := nodup_keys_of_sorted hs
  have hs1 : SortedKeys (mapRemove a m) := sortedKeys_mapRemove hs
  have hnd1 := nodup_keys_of_sorted hs1
  have hs2 : SortedKeys (mapRemove b (mapRemove a m)) := sortedKeys_mapRemove hs1
  have hw2 : WfKeys (mapRemove b (mapRemove a m)) :=
    wfKeys_mapRemove (wfKeys_mapRemove hw)
  have ht1 : totalLen m = a.size + totalLen (mapRemove a m) :=
    totalLen_mapRemove m hamem hnd
  have ht2 : totalLen (mapRemove a m) =
      b.size + totalLen (mapRemove b (mapRemove a m)) :=
    totalLen_mapRemove (mapRemove a m) hbmem1 hnd1
  have hix := intersect_of_found hlt hint hbwf
  refine ⟨insOpt (if b.first > 0 then maybeI a.first (b.first - 1) else none) aS
    (insOpt (if min a.last b.last < UMAX then
        maybeI (min a.last b.last + 1) (max a.last b.last) else none)
      (if b.last < a.last then aS else bS)
      (mapInsert Interval.ltb (⟨b.first, min a.last b.last⟩ : Interval)
        (sortDedup (aS ++ bS)) (mapRemove b (mapRemove a m)))), ?_, ?_, ?_, ?_⟩
  · simp only [splitOnce, haS, hbS, hix]
  · exact sortedKeys_insOpt (sortedKeys_insOpt (sortedKeys_mapInsert _ _ _ hs2))
  · have hint' : a.first ≤ b.last ∧ b.first ≤ a.last := by
      simpa only [Interval.intersectsb, Bool.and_eq_true, decide_eq_true_eq] using hint
    have hmidwf : (⟨b.first, min a.last b.last⟩ : Interval).Wf := by
      unfold Interval.Wf at hbwf ⊢
      simp only
      omega
    have hoL : ∀ i, (if b.first > 0 then maybeI a.first (b.first - 1) else none) =
        some i → i.Wf := by
      intro i hi
      split_ifs at hi
      exact maybeI_wf hi
    have hoR : ∀ i, (if min a.last b.last < UMAX then
        maybeI (min a.last b.last + 1) (max a.last b.last) else none) =
        some i → i.Wf := by
      intro i hi
      split_ifs at hi
      exact maybeI_wf hi
    exact wfKeys_insOpt (wfKeys_insOpt (wfKeys_mapInsert hw2 hmidwf) hoR) hoL
  · have hins1 := totalLen_mapInsert_le (⟨b.first, min a.last b.last⟩ : Interval)
      (sortDedup (aS ++ bS)) (mapRemove b (mapRemove a m))
    have hins2 := totalLen_insOpt_le
      (if min a.last b.last < UMAX then
        maybeI (min a.last b.last + 1) (max a.last b.last) else none)
      (if b.last < a.last then aS else bS)
      (mapInsert Interval.ltb (⟨b.first, min a.last b.last⟩ : Interval)
        (sortDedup (aS ++ bS)) (mapRemove b (mapRemove a m)))
    have hins3 := totalLen_insOpt_le
      (if b.first > 0 then maybeI a.first (b.first - 1) else none) aS
      (insOpt
        (if min a.last b.last < UMAX then
          maybeI (min a.last b.last + 1) (max a.last b.last) else none)
        (if b.last < a.last then aS else bS)
        (mapInsert Interval.ltb (⟨b.first, min a.last b.last⟩ : Interval)
          (sortDedup (aS ++ bS)) (mapRemove b (mapRemove a m))))
    have hlt' : a.first < b.first ∨ (a.first = b.first ∧ a.last < b.last) := by
      simpa only [Interval.ltb, Bool.or_eq_true, Bool.and_eq_true,
        decide_eq_true_eq] using hlt
    have hint' : a.first ≤ b.last ∧ b.first ≤ a.last := by
      simpa only [Interval.intersectsb, Bool.and_eq_true, decide_eq_true_eq] using hint
    have hsz : sizeOpt (if b.first > 0 then maybeI a.first (b.first - 1) else none) +
        (⟨b.first, min a.last b.last⟩ : Interval).size +
        sizeOpt (if min a.last b.last < UMAX then
          maybeI (min a.last b.last + 1) (max a.last b.last) else none) <
        a.size + b.size := by
      unfold Interval.Wf at hawf hbwf
      have e1 := sizeOpt_maybeI a.first (b.first - 1)
      have e2 := sizeOpt_maybeI (min a.last b.last + 1) (max a.last b.last)
      split_ifs <;>
        (first | rw [e1, e2] | rw [e1] | rw [e2] | skip) <;>
        simp only [sizeOpt, Interval.size] <;>
        omega
    omega

/-! ### Resolution loop: termination and fixed point -/

/-- Whatever `resolve_intersections` returns has no intersecting pair. -/
theorem resolveFuel_ok_none : ∀ (fuel : Nat) (m r : MoveMap),
    resolveFuel fuel m = .ok r → findIntersection r = none
  | 0, m, r, h => by simp [resolveFuel] at h
  | fuel + 1, m, r, h => by
    cases hf : findIntersection m with
    | none =>
      simp only [resolveFuel, hf] at h
      cases h
      exact hf
    | some p =>
      obtain ⟨a, b⟩ := p
      simp only [resolveFuel, hf] at h
      cases hsp : splitOnce m a b with
      | error e =>
        simp only [hsp] at h
        exact Except.noConfusion h
      | ok m' =>
        simp only [hsp] at h
        exact resolveFuel_ok_none fuel m' r h

/-- Fuel exceeding the total key size suffices: the loop reaches a fixed
point with no intersecting pair, keeping keys sorted and well-formed. -/
theorem resolveFuel_sufficient : ∀ (fuel : Nat) (m : MoveMap), SortedKeys m →
    WfKeys m → totalLen m < fuel →
    ∃ r, resolveFuel fuel m = .ok r ∧ findIntersection r = none ∧
      SortedKeys r ∧ WfKeys r
  | 0, m, _, _, h => absurd h (by omega)
  | fuel + 1, m, hs, hw, hlen => by
    cases hf : findIntersection m with
    | none => exact ⟨m, by simp [resolveFuel, hf], hf, hs, hw⟩
    | some p =>
      obtain ⟨a, b⟩ := p
      obtain ⟨m', hok, hs', hw', hdec⟩ := splitOnce_found hf hs hw
      obtain ⟨r, hr, hnone, hsr, hwr⟩ :=
        resolveFuel_sufficient fuel m' hs' hw' (by omega)
      exact ⟨r, by simp [resolveFuel, hf, hok, hr], hnone, hsr, hwr⟩

/-- The resolution loop never reaches a panic on a sorted, well-formed move
set: the middle-interval `unwrap` and the two map removals are guarded. -/
theorem resolveFuel_no_panic : ∀ (fuel : Nat) (m : MoveMap), SortedKeys m →
    WfKeys m → resolveFuel fuel m ≠ .error .panicked
  | 0, m, _, _ => by simp [resolveFuel]
  | fuel + 1, m, hs, hw => by
    cases hf : findIntersection m with
    | none => simp [resolveFuel, hf]
    | some p =>
      obtain ⟨a, b⟩ := p
      obtain ⟨m', hok, hs', hw', _⟩ := splitOnce_found hf hs hw
      simp only [resolveFuel, hf, hok]
      exact resolveFuel_no_panic fuel m' hs' hw'

/-- C6, amended: the disjointification loop terminates on every finite move
set with sorted, well-formed keys — fuel exceeding the total number of code
points covered by the keys reaches a fixed point in which no two keys
intersect and the keys are pairwise disjoint. (Each splitting pass strictly
decreases that total; the claim's own invariant — each pass strictly grows
the key count or leaves the set disjoint — is refuted separately.) -/
theorem c6_resolve_terminates (m : MoveMap) (hs : SortedKeys m) (hw : WfKeys m)
    (fuel : Nat) (hfuel : totalLen m < fuel) :
    ∃ r, resolveFuel fuel m = .ok r ∧ findIntersection r = none ∧
      (mapKeys r).Pairwise ivDisjoint := by
  obtain ⟨r, hok, hnone, hsr, hwr⟩ := resolveFuel_sufficient fuel m hs hw hfuel
  exact ⟨r, hok, hnone,
    pairwise_disjoint_of_resolved _ hwr hsr (findIntersection_none_chain hnone)⟩

/-- C6 witness: the theorem applied to the concrete move set `ex6`. -/
theorem c6_witness :
    (SortedKeys ex6 ∧ WfKeys ex6 ∧ totalLen ex6 < 19) ∧
    (∃ r, resolveFuel 19 ex6 = .ok r ∧ findIntersection r = none ∧
      (mapKeys r).Pairwise ivDisjoint) := by
  refine ⟨⟨?_, ?_, ?_⟩, ?_⟩
  · unfold SortedKeys
    decide
  · unfold WfKeys
    decide
  · decide
  · exact c6_resolve_terminates ex6 (by unfold SortedKeys; decide)
      (by unfold WfKeys; decide) 19 (by decide)

/-! ### Invariants of `get_move_set` -/

/-- The inner `get_move_set` loop keeps the accumulated map sorted and
well-formed. -/
theorem moveSetAddState_props (fuel : Nat) (nfa : Nfa) (s : Nat) :
    ∀ (ml : List (Transition × List Int)) (m m' : MoveMap),
      moveSetAddState fuel nfa s ml m = some m' →
      SortedKeys m → WfKeys m → (∀ p ∈ ml, TWf p.1) →
      SortedKeys m' ∧ WfKeys m'
  | [], m, m', h, hs, hw, _ => by
    simp only [moveSetAddState, Option.some.injEq] at h
    subst h
    exact ⟨hs, hw⟩
  | (t, offs) :: rest, m, m', h, hs, hw, hml => by
    cases t with
    | Epsilon =>
      simp only [moveSetAddState] at h
      exact moveSetAddState_props fuel nfa s rest m m' h hs hw
        (fun p hp => hml p (List.mem_cons_of_mem _ hp))
    | Input c =>
      simp only [moveSetAddState] at h
      cases hec : nfa.epsilonClosure fuel
          (offs.map fun off => castUsize ((s : Int) + off)) with
      | none =>
        simp only [hec] at h
        exact Option.noConfusion h
      | some ec =>
        simp only [hec] at h
        have hcwf : c.Wf := by
          have := hml (Transition.Input c, offs) (List.mem_cons_self _ _)
          simpa [TWf] using this
        exact moveSetAddState_props fuel nfa s rest _ m' h
          (sortedKeys_mapInsert _ _ _ hs) (wfKeys_mapInsert hw hcwf)
          (fun p hp => hml p (List.mem_cons_of_mem _ hp))

/-- The outer `get_move_set` loop keeps the accumulated map sorted and
well-formed when the NFA's intervals are well-formed. -/
theorem getMoveSetGo_props (fuel : Nat) (nfa : Nfa) (hnfa : NfaWf nfa) :
    ∀ (ss : List Nat) (m m' : MoveMap), getMoveSetGo fuel nfa ss m = some m' →
      SortedKeys m → WfKeys m → SortedKeys m' ∧ WfKeys m'
  | [], m, m', h, hs, hw => by
    simp only [getMoveSetGo, Option.some.injEq] at h
    subst h
    exact ⟨hs, hw⟩
  | s :: rest, m, m', h, hs, hw => by
    simp only [getMoveSetGo] at h
    cases hst : nfa.states.get? s with
    | none =>
      simp only [hst] at h
      exact getMoveSetGo_props fuel nfa hnfa rest m m' h hs hw
    | some st =>
      simp only [hst] at h
      cases hms : moveSetAddState fuel nfa s st.moves m with
      | none =>
        simp only [hms] at h
        exact Option.noConfusion h
      | some m1 =>
        simp only [hms] at h
        have hstmem : st ∈ nfa.states := List.get?_mem hst
        obtain ⟨hs1, hw1⟩ := moveSetAddState_props fuel nfa s st.moves m m1 hms hs hw
          (fun p hp => hnfa st hstmem p hp)
        exact getMoveSetGo_props fuel nfa hnfa rest m1 m' h hs1 hw1

/-- `get_move_set` produces a sorted, well-formed move map. -/
theorem getMoveSet_props {fuel : Nat} {nfa : Nfa} {S : List Nat} {m : MoveMap}
    (hnfa : NfaWf nfa) (h : nfa.getMoveSet fuel S = some m) :
    SortedKeys m ∧ WfKeys m :=
  getMoveSetGo_props fuel nfa hnfa S [] m h List.Pairwise.nil (fun k hk => by
    simp [mapKeys] at hk)

/-! ### C3: interval disjointness of every DFA state -/

/-- Disjointness is symmetric. -/
theorem ivDisjoint_symm : Symmetric ivDisjoint := by
  intro a b hab c hc
  exact hab c ⟨hc.2, hc.1⟩

/-- The fold over resolved entries only appends fresh DFA states, all with
empty move maps. -/
theorem processFold_dstates (nfa : Nfa) :
    ∀ (entries : MoveMap) (ds : List DTmp) (mv : List (Interval × Nat)),
      ∃ extra : List DTmp,
        (entries.foldl (processEntry nfa) (ds, mv)).1 = ds ++ extra ∧
        ∀ t ∈ extra, t.dstate.moves = []
  | [], ds, mv => ⟨[], by simp, by simp⟩
  | e :: entries, ds, mv => by
    obtain ⟨iv, tstates⟩ := e
    simp only [List.foldl_cons]
    cases hidx : ds.findIdx? (fun s => s.nfaStates = tstates) with
    | some pos =>
      have hpe : processEntry nfa (ds, mv) (iv, tstates) =
          (ds, mapInsert Interval.ltb iv pos mv) := by
        simp [processEntry, hidx]
      rw [hpe]
      exact processFold_dstates nfa entries ds _
    | none =>
      have hpe : processEntry nfa (ds, mv) (iv, tstates) =
          (ds ++ [dstateFromNfaStates nfa tstates],
           mapInsert Interval.ltb iv ds.length mv) := by
        simp [processEntry, hidx]
      rw [hpe]
      obtain ⟨extra, he1, he2⟩ :=
        processFold_dstates nfa entries (ds ++ [dstateFromNfaStates nfa tstates]) _
      refine ⟨dstateFromNfaStates nfa tstates :: extra, ?_, ?_⟩
      · rw [he1, List.append_assoc]
        rfl
      · intro t ht
        rcases List.mem_cons.mp ht with rfl | ht'
        · rfl
        · exact he2 t ht'

/-- The fold over resolved entries builds a sorted move map whose keys come
from the entries. -/
theorem processFold_mv (nfa : Nfa) :
    ∀ (entries : MoveMap) (ds : List DTmp) (mv : List (Interval × Nat)),
      SortedKeys mv →
      SortedKeys (entries.foldl (processEntry nfa) (ds, mv)).2 ∧
      ∀ k ∈ mapKeys (entries.foldl (processEntry nfa) (ds, mv)).2,
        k ∈ mapKeys mv ∨ k ∈ mapKeys entries
  | [], ds, mv, hs => ⟨hs, fun k hk => Or.inl hk⟩
  | e :: entries, ds, mv, hs => by
    obtain ⟨iv, tstates⟩ := e
    simp only [List.foldl_cons]
    cases hidx : ds.findIdx? (fun s => s.nfaStates = tstates) with
    | some pos =>
      have hpe : processEntry nfa (ds, mv) (iv, tstates) =
          (ds, mapInsert Interval.ltb iv pos mv) := by
        simp [processEntry, hidx]
      rw [hpe]
      obtain ⟨ih1, ih2⟩ := processFold_mv nfa entries ds
        (mapInsert Interval.ltb iv pos mv) (sortedKeys_mapInsert _ _ _ hs)
      refine ⟨ih1, ?_⟩
      intro k hk
      rcases ih2 k hk with hk' | hk'
      · rcases mem_keys_mapInsert mv hk' with rfl | hk''
        · exact Or.inr (by simp [mapKeys])
        · exact Or.inl hk''
      · exact Or.inr (by simp [mapKeys]; exact Or.inr (by simpa [mapKeys] using hk'))
    | none =>
      have hpe : processEntry nfa (ds, mv) (iv, tstates) =
          (ds ++ [dstateFromNfaStates nfa tstates],
           mapInsert Interval.ltb iv ds.length mv) := by
        simp [processEntry, hidx]
      rw [hpe]
      obtain ⟨ih1, ih2⟩ := processFold_mv nfa entries
        (ds ++ [dstateFromNfaStates nfa tstates])
        (mapInsert Interval.ltb iv ds.length mv) (sortedKeys_mapInsert _ _ _ hs)
      refine ⟨ih1, ?_⟩
      intro k hk
      rcases ih2 k hk with hk' | hk'
      · rcases mem_keys_mapInsert mv hk' with rfl | hk''
        · exact Or.inr (by simp [mapKeys])
        · exact Or.inl hk''
      · exact Or.inr (by simp [mapKeys]; exact Or.inr (by simpa [mapKeys] using hk'))

/-- Invariant of the subset-construction worklist: processed states have
pairwise-disjoint move keys, pending states still have empty move maps. -/
def BuildInv (dstates : List DTmp) (cur : Nat) : Prop :=
  (∀ i d, i < cur → dstates.get? i = some d →
    (mapKeys d.dstate.moves).Pairwise ivDisjoint) ∧
  (∀ i d, cur ≤ i → dstates.get? i = some d → d.dstate.moves = [])

/-- The worklist loop of `from_nfa` preserves pairwise disjointness of every
state's move keys. -/
theorem buildLoop_disjoint (nfa : Nfa) (hnfa : NfaWf nfa) (cfuel : Nat) :
    ∀ (fuel : Nat) (dstates : List DTmp) (cur : Nat) (final : List DTmp),
      buildLoop nfa cfuel fuel dstates cur = .ok final →
      BuildInv dstates cur →
      ∀ d ∈ final, (mapKeys d.dstate.moves).Pairwise ivDisjoint
  | 0, dstates, cur, final, h, hinv => by
    simp only [buildLoop] at h
    split_ifs at h with hcur
    cases h
    intro d hd
    obtain ⟨i, hi⟩ := List.mem_iff_get?.mp hd
    have hlen : i < dstates.length := (List.get?_eq_some.mp hi).1
    exact hinv.1 i d (by omega) hi
  | fuel + 1, dstates, cur, final, h, hinv => by
    simp only [buildLoop] at h
    split_ifs at h with hcur
    · cases hget : dstates.get? cur with
      | none =>
        simp only [hget] at h
        exact Except.noConfusion h
      | some d =>
        simp only [hget] at h
        cases hms : nfa.getMoveSet cfuel d.nfaStates with
        | none =>
          simp only [hms] at h
          exact Except.noConfusion h
        | some ms =>
          simp only [hms] at h
          obtain ⟨hsms, hwms⟩ := getMoveSet_props hnfa hms
          obtain ⟨r, hok, hnone, hsr, hwr⟩ :=
            resolveFuel_sufficient (totalLen ms + 1) ms hsms hwms (by omega)
          simp only [hok] at h
          obtain ⟨ds2, mv, hfold⟩ :
              ∃ ds2 mv, List.foldl (processEntry nfa) (dstates, []) r = (ds2, mv) :=
            ⟨_, _, rfl⟩
          simp only [hfold] at h
          obtain ⟨extra, hds2raw, hextra⟩ := processFold_dstates nfa r dstates []
          have hds2 : ds2 = dstates ++ extra := by
            rw [hfold] at hds2raw
            exact hds2raw
          obtain ⟨hsmvraw, hsubmvraw⟩ :=
            processFold_mv nfa r dstates [] List.Pairwise.nil
          have hsmv : SortedKeys mv := by
            rw [hfold] at hsmvraw
            exact hsmvraw
          have hsubmv : ∀ k ∈ mapKeys mv,
              k ∈ mapKeys ([] : List (Interval × Nat)) ∨ k ∈ mapKeys r := by
            rw [hfold] at hsubmvraw
            exact hsubmvraw
          have hdisj_r : (mapKeys r).Pairwise ivDisjoint :=
            pairwise_disjoint_of_resolved _ hwr hsr (findIntersection_none_chain hnone)
          have hdisj_mv : (mapKeys mv).Pairwise ivDisjoint := by
            refine (nodup_keys_of_sorted hsmv).pairwise_of_forall_ne ?_
            intro x hx y hy hxy
            have hx' : x ∈ mapKeys r := by
              rcases hsubmv x hx with h' | h'
              · simp [mapKeys] at h'
              · exact h'
            have hy' : y ∈ mapKeys r := by
              rcases hsubmv y hy with h' | h'
              · simp [mapKeys] at h'
              · exact h'
            exact hdisj_r.forall ivDisjoint_symm hx' hy' hxy
          have hcur2 : cur < ds2.length := by
            rw [hds2, List.length_append]
            omega
          have hget2 : ds2.get? cur = some d := by
            rw [hds2, List.get?_append hcur]
            exact hget
          have hset : setStateMoves ds2 cur mv =
              ds2.set cur { d with dstate := { d.dstate with moves := mv } } := by
            unfold setStateMoves
            rw [hget2]
          rw [hset] at h
          refine buildLoop_disjoint nfa hnfa cfuel fuel _ (cur + 1) final h ⟨?_, ?_⟩
          · intro i di hi hgeti
            by_cases hic : i = cur
            · subst hic
              rw [List.get?_set_eq_of_lt _ hcur2] at hgeti
              cases hgeti
              exact hdisj_mv
            · rw [List.get?_set_ne _ _ (fun he => hic he.symm)] at hgeti
              have hilt : i < cur := by omega
              have hidstates : ds2.get? i = dstates.get? i := by
                rw [hds2, List.get?_append (by omega)]
              rw [hidstates] at hgeti
              exact hinv.1 i di hilt hgeti
          · intro i di hi hgeti
            have hine : i ≠ cur := by omega
            rw [List.get?_set_ne _ _ (fun he => hine he.symm)] at hgeti
            by_cases hil : i < dstates.length
            · have hidstates : ds2.get? i = dstates.get? i := by
                rw [hds2, List.get?_append hil]
              rw [hidstates] at hgeti
              exact hinv.2 i di (by omega) hgeti
            · rw [hds2, List.get?_append_right (by omega)] at hgeti
              exact hextra di (List.get?_mem hgeti)
    · cases h
      intro d hd
      obtain ⟨i, hi⟩ := List.mem_iff_get?.mp hd
      have hlen : i < dstates.length := (List.get?_eq_some.mp hi).1
      exact hinv.1 i d (by omega) hi

/-- C3: after `Dfa::from_nfa` returns (modelled as the fuel-indexed loop
succeeding), every DFA state's `move_map` has pairwise-disjoint interval
keys: no code point is contained in two distinct keys of one state. The
`NfaWf` hypothesis is the invariant Rust's private `Interval` constructors
guarantee for every NFA value. -/
theorem c3_dfa_move_map_disjoint (fuel : Nat) (nfa : Nfa) (d : Dfa)
    (hnfa : NfaWf nfa) (h : fromNfa fuel nfa = .ok d) :
    ∀ st ∈ d.states, (mapKeys st.moves).Pairwise ivDisjoint := by
  unfold fromNfa at h
  cases hcl : nfa.epsilonClosure fuel [0] with
  | none =>
    simp only [hcl] at h
    exact Except.noConfusion h
  | some e0 =>
    simp only [hcl] at h
    cases hbl : buildLoop nfa fuel fuel [dstateFromNfaStates nfa e0] 0 with
    | error e =>
      simp only [hbl] at h
      exact Except.noConfusion h
    | ok dstates =>
      simp only [hbl] at h
      cases hop : optimizePartition fuel ⟨dstates.map (·.dstate)⟩ with
      | error e =>
        simp only [hop] at h
        exact Except.noConfusion h
      | ok part =>
        simp only [hop] at h
        cases h
        intro st hst
        obtain ⟨t, ht, rfl⟩ := List.mem_map.mp hst
        refine buildLoop_disjoint nfa hnfa fuel fuel _ 0 dstates hbl ⟨?_, ?_⟩ t ht
        · intro i di hi
          omega
        · intro i di _ hgeti
          cases i with
          | zero =>
            simp only [List.get?_cons_zero, Option.some.injEq] at hgeti
            subst hgeti
            rfl
          | succ n =>
            simp only [List.get?_cons_succ, List.get?_nil] at hgeti
            exact Option.noConfusion hgeti

/-- A small accepting NFA for the C3 and C10 witnesses. -/
def nfaW : Nfa := (Nfa.new ⟨97, 97⟩).concat (Nfa.newAccepting "T")

/-- The DFA `from_nfa` builds for `nfaW`. -/
def dfaW : Dfa :=
  ⟨[⟨[(⟨97, 97⟩, 1)], none⟩, ⟨[], some "T"⟩]⟩

/-- C3 witness: the theorem applied to the concrete NFA `nfaW`. -/
theorem c3_witness :
    (NfaWf nfaW ∧ fromNfa 30 nfaW = .ok dfaW) ∧
    ∀ st ∈ dfaW.states, (mapKeys st.moves).Pairwise ivDisjoint := by
  refine ⟨⟨by decide, rfl⟩, ?_⟩
  exact c3_dfa_move_map_disjoint 30 nfaW dfaW (by decide) rfl

/-! ### C10: `from_nfa` never panics -/

/-- The raw-target comparison loop of `optimize` cannot panic when every
compared key is present in the candidate's move map. -/
theorem equivCheckGo_ok (state : DState) :
    ∀ ms : List (Interval × Nat), (∀ p ∈ ms, p.1 ∈ mapKeys state.moves) →
      ∃ b, equivCheckGo state ms = .ok b
  | [], _ => ⟨true, rfl⟩
  | (i, s) :: rest, hmem => by
    obtain ⟨v, hv⟩ := mapGet?_mem state.moves (hmem (i, s) (List.mem_cons_self _ _))
    simp only [equivCheckGo, hv]
    split_ifs
    · exact ⟨false, rfl⟩
    · exact equivCheckGo_ok state rest
        (fun p hp => hmem p (List.mem_cons_of_mem _ hp))

/-- The state-equivalence check of `optimize` cannot panic on in-range
indices: the `move_map` indexing is guarded by the key-set equality. -/
theorem equivCheck_ok (states : List DState) (repIdx stateIdx : Nat)
    (hrep : repIdx < states.length) (hst : stateIdx < states.length) :
    ∃ b, equivCheck states repIdx stateIdx = .ok b := by
  have h1 : states.get? repIdx = some (states.get ⟨repIdx, hrep⟩) :=
    List.get?_eq_get hrep
  have h2 : states.get? stateIdx = some (states.get ⟨stateIdx, hst⟩) :=
    List.get?_eq_get hst
  simp only [equivCheck, h1, h2]
  split_ifs with hne
  · exact ⟨false, rfl⟩
  · refine equivCheckGo_ok _ _ ?_
    intro p hp
    have : p.1 ∈ mapKeys (states.get ⟨repIdx, hrep⟩).moves := by
      simp only [mapKeys, List.mem_map]
      exact ⟨p, hp, rfl⟩
    have hkeys : (states.get ⟨repIdx, hrep⟩).moveIntervals =
        (states.get ⟨stateIdx, hst⟩).moveIntervals := not_ne_iff.mp hne
    unfold DState.moveIntervals at hkeys
    rwa [hkeys] at this

/-- Placing a state into the subgroups cannot panic: every subgroup is
non-empty and every member index is in range. -/
theorem placeInSubgroup_ok (states : List DState) :
    ∀ (subs : List (List Nat)) (idx : Nat),
      (∀ sub ∈ subs, sub ≠ [] ∧ ∀ i ∈ sub, i < states.length) →
      idx < states.length →
      (∃ subs', placeInSubgroup states subs idx = .ok (some subs') ∧
        (∀ sub ∈ subs', sub ≠ [] ∧ ∀ i ∈ sub, i < states.length)) ∨
      placeInSubgroup states subs idx = .ok none
  | [], idx, _, _ => Or.inr rfl
  | sub :: rest, idx, hsubs, hidx => by
    obtain ⟨hne, hbound⟩ := hsubs sub (List.mem_cons_self _ _)
    obtain ⟨rep, subt, rfl⟩ : ∃ rep subt, sub = rep :: subt := by
      cases sub with
      | nil => exact absurd rfl hne
      | cons rep subt => exact ⟨rep, subt, rfl⟩
    have hrep : rep < states.length := hbound rep (List.mem_cons_self _ _)
    obtain ⟨b, hb⟩ := equivCheck_ok states rep idx hrep hidx
    simp only [placeInSubgroup, List.head?, hb]
    cases b with
    | true =>
      refine Or.inl ⟨((rep :: subt) ++ [idx]) :: rest, rfl, ?_⟩
      intro s hs
      rcases List.mem_cons.mp hs with rfl | hs'
      · refine ⟨by simp, ?_⟩
        intro i hi
        rcases List.mem_append.mp hi with hi' | hi'
        · exact hbound i hi'
        · rw [List.mem_singleton.mp hi']
          exact hidx
      · exact hsubs s (List.mem_cons_of_mem _ hs')
    | false =>
      rcases placeInSubgroup_ok states rest idx
          (fun s hs => hsubs s (List.mem_cons_of_mem _ hs)) hidx with
        ⟨rest', hr, hrprops⟩ | hr
      · refine Or.inl ⟨(rep :: subt) :: rest', ?_, ?_⟩
        · simp only [hr]
        · intro s hs
          rcases List.mem_cons.mp hs with rfl | hs'
          · exact ⟨hne, hbound⟩
          · exact hrprops s hs'
      · refine Or.inr ?_
        simp only [hr]

/-- Refining one group cannot panic and keeps subgroup invariants. -/
theorem refineGroupGo_ok (states : List DState) :
    ∀ (group : List Nat) (subs : List (List Nat)),
      (∀ sub ∈ subs, sub ≠ [] ∧ ∀ i ∈ sub, i < states.length) →
      (∀ i ∈ group, i < states.length) →
      ∃ subs', refineGroupGo states group subs = .ok subs' ∧
        ∀ sub ∈ subs', sub ≠ [] ∧ ∀ i ∈ sub, i < states.length
  | [], subs, hsubs, _ => ⟨subs, rfl, hsubs⟩
  | idx :: group, subs, hsubs, hgroup => by
    have hidx : idx < states.length := hgroup idx (List.mem_cons_self _ _)
    have hgroup' : ∀ i ∈ group, i < states.length :=
      fun i hi => hgroup i (List.mem_cons_of_mem _ hi)
    rcases placeInSubgroup_ok states subs idx hsubs hidx with
      ⟨subs2, hp, hprops⟩ | hp
    · obtain ⟨subs', hgo, hprops'⟩ := refineGroupGo_ok states group subs2 hprops hgroup'
      refine ⟨subs', ?_, hprops'⟩
      simp only [refineGroupGo, hp, hgo]
    · have hprops2 : ∀ sub ∈ subs ++ [[idx]], sub ≠ [] ∧
          ∀ i ∈ sub, i < states.length := by
        intro s hs
        rcases List.mem_append.mp hs with hs' | hs'
        · exact hsubs s hs'
        · rw [List.mem_singleton.mp hs']
          refine ⟨by simp, ?_⟩
          intro i hi
          rw [List.mem_singleton.mp hi]
          exact hidx
      obtain ⟨subs', hgo, hprops'⟩ :=
        refineGroupGo_ok states group (subs ++ [[idx]]) hprops2 hgroup'
      refine ⟨subs', ?_, hprops'⟩
      simp only [refineGroupGo, hp, hgo]

/-- One refinement pass cannot panic and keeps every index in range. -/
theorem refinePassGo_ok (states : List DState) :
    ∀ (partition acc : List (List Nat)),
      (∀ g ∈ partition, ∀ i ∈ g, i < states.length) →
      (∀ g ∈ acc, ∀ i ∈ g, i < states.length) →
      ∃ out, refinePassGo states partition acc = .ok out ∧
        ∀ g ∈ out, ∀ i ∈ g, i < states.length
  | [], acc, _, hacc => ⟨acc, rfl, hacc⟩
  | g :: partition, acc, hpart, hacc => by
    have hg : ∀ i ∈ g, i < states.length := hpart g (List.mem_cons_self _ _)
    obtain ⟨subs, hrg, hsubs⟩ := refineGroupGo_ok states g [] (by simp) hg
    have hacc2 : ∀ g2 ∈ acc ++ subs, ∀ i ∈ g2, i < states.length := by
      intro g2 hg2
      rcases List.mem_append.mp hg2 with h' | h'
      · exact hacc g2 h'
      · exact (hsubs g2 h').2
    obtain ⟨out, hout, houtp⟩ := refinePassGo_ok states partition (acc ++ subs)
      (fun g2 h2 => hpart g2 (List.mem_cons_of_mem _ h2)) hacc2
    refine ⟨out, ?_, houtp⟩
    have hrg' : refineGroup states g = .ok subs := by
      unfold refineGroup
      exact hrg
    simp only [refinePassGo, hrg', hout]

/-- The refinement loop of `optimize` cannot panic when the partition's
indices are in range. -/
theorem optimizeLoop_no_panic (states : List DState) :
    ∀ (fuel : Nat) (partition : List (List Nat)),
      (∀ g ∈ partition, ∀ i ∈ g, i < states.length) →
      optimizeLoop states fuel partition ≠ .error .panicked
  | 0, partition, _ => by simp [optimizeLoop]
  | fuel + 1, partition, hpart => by
    obtain ⟨out, hout, houtp⟩ := refinePassGo_ok states partition [] hpart (by simp)
    have hout' : refinePass states partition = .ok out := by
      unfold refinePass
      exact hout
    simp only [optimizeLoop, hout']
    split_ifs
    · exact optimizeLoop_no_panic states fuel out houtp
    · simp

/-- `optimize` (modelled as the partition computation) never panics. -/
theorem optimizePartition_no_panic (fuel : Nat) (d : Dfa) :
    optimizePartition fuel d ≠ .error .panicked := by
  unfold optimizePartition
  refine optimizeLoop_no_panic d.states fuel _ ?_
  intro g hg i hi
  have : g = (List.range d.states.length).filter
        (fun i => ((d.states.get? i).map DState.isAcceptingD).getD false) ∨
      g = (List.range d.states.length).filter
        (fun i => !((d.states.get? i).map DState.isAcceptingD).getD false) := by
    rcases List.mem_cons.mp hg with rfl | hg'
    · exact Or.inl rfl
    · rcases List.mem_cons.mp hg' with rfl | hg''
      · exact Or.inr rfl
      · cases hg''
  rcases this with rfl | rfl <;>
    exact List.mem_range.mp (List.mem_filter.mp hi).1

/-- The subset-construction worklist loop never panics on a well-formed
NFA: the state indexing is guarded by the loop condition and the resolution
loop always reaches its fixed point within its fuel. -/
theorem buildLoop_no_panic (nfa : Nfa) (hnfa : NfaWf nfa) (cfuel : Nat) :
    ∀ (fuel : Nat) (dstates : List DTmp) (cur : Nat),
      buildLoop nfa cfuel fuel dstates cur ≠ .error .panicked
  | 0, dstates, cur => by
    simp only [buildLoop]
    split_ifs <;> simp
  | fuel + 1, dstates, cur => by
    simp only [buildLoop]
    split_ifs with hcur
    · simp only [List.get?_eq_get hcur]
      cases hms : nfa.getMoveSet cfuel (dstates.get ⟨cur, hcur⟩).nfaStates with
      | none => simp [hms]
      | some ms =>
        simp only [hms]
        obtain ⟨hsms, hwms⟩ := getMoveSet_props hnfa hms
        obtain ⟨r, hok, _, _, _⟩ :=
          resolveFuel_sufficient (totalLen ms + 1) ms hsms hwms (by omega)
        simp only [hok]
        exact buildLoop_no_panic nfa hnfa cfuel fuel _ (cur + 1)
    · simp

/-- C10: `Dfa::from_nfa` never panics on any well-formed NFA value: the
middle-interval `unwrap` and the two map removals of
`resolve_intersections` are unreachable because `find_intersection` only
returns member keys that intersect (so the middle is non-empty), and the
map indexing and `unwrap`s inside `optimize` are guarded by the key-set
equality and the non-empty-subgroup construction. Loop termination is
modelled by explicit fuel; exhausting fuel is reported as
`Fail.fuelOut`, never as a panic. -/
theorem c10_from_nfa_no_panic (fuel : Nat) (nfa : Nfa) (hnfa : NfaWf nfa) :
    fromNfa fuel nfa ≠ .error .panicked := by
  unfold fromNfa
  cases hcl : nfa.epsilonClosure fuel [0] with
  | none => simp [hcl]
  | some e0 =>
    simp only [hcl]
    cases hbl : buildLoop nfa fuel fuel [dstateFromNfaStates nfa e0] 0 with
    | error e =>
      simp only [hbl]
      have hbl' := buildLoop_no_panic nfa hnfa fuel fuel [dstateFromNfaStates nfa e0] 0
      rw [hbl] at hbl'
      intro hcontra
      have he : e = Fail.panicked := by injection hcontra
      exact hbl' (by rw [he])
    | ok dstates =>
      simp only [hbl]
      cases hop : optimizePartition fuel ⟨dstates.map (·.dstate)⟩ with
      | error e =>
        simp only [hop]
        have hop' := optimizePartition_no_panic fuel ⟨dstates.map (·.dstate)⟩
        rw [hop] at hop'
        intro hcontra
        have he : e = Fail.panicked := by injection hcontra
        exact hop' (by rw [he])
      | ok part =>
        simp only [hop]
        intro hcontra
        exact Except.noConfusion hcontra

/-- C10 witness: the theorem applied to the concrete NFA `nfaW`. -/
theorem c10_witness :
    NfaWf nfaW ∧ fromNfa 30 nfaW ≠ .error .panicked :=
  ⟨by decide, c10_from_nfa_no_panic 30 nfaW (by decide)⟩

end Pars
